import Mathlib

/-!
Verification of the SeaLevelViewer climate core against its specification.

The development shallowly embeds the moisture transport engine
(`src/app/computeMoistureAvailabilityDijkstra.ts`), the sea-level stage and
the thermal/ice model (`src/app/RecolorGridLayer.ts`).  JavaScript numbers
are modelled as real numbers; the `Infinity` sentinel stored in the cost
array is modelled with `WithTop ℝ`; the engine's unbounded `while` loop is
modelled with explicit fuel, and termination of a run is expressed as the
final heap being empty.
-/

namespace SeaLevelViewer

noncomputable section

/-- Directions of the four grid moves, numbered as in the source:
east = 0, west = 1, south = 2, north = 3. -/
inductive Dir4 : Type
  | east
  | west
  | south
  | north
deriving DecidableEq, Repr

/-- Embedding of `clampNonNeg` from `computeMoistureAvailabilityDijkstra.ts`. -/
def clampNonNeg (x : ℝ) : ℝ := if x < 0 then 0 else x

/-- Embedding of `clampAtLeast1` from `computeMoistureAvailabilityDijkstra.ts`. -/
def clampAtLeast1 (x : ℝ) : ℝ := if x < 1 then 1 else x

/-- Embedding of `clampSourceStrength` from
`computeMoistureAvailabilityDijkstra.ts`.  The `Number.isFinite` guard of the
source is vacuous in the real-number model. -/
def clampSourceStrength (x : ℝ) (eps : ℝ) : ℝ :=
  if x ≤ eps then eps else if 1 ≤ x then 1 else x

/-- An entry of the binary heap: a `(node, key)` pair, the two parallel
arrays `nodes`/`keys` of the source's `MinHeapPair` read at one index. -/
abbrev HeapEntry : Type := ℕ × ℝ

/-- Sift-up phase of `MinHeapPair.push`: entry `e` sits at index `i`; while
the parent key is larger, swap with the parent. -/
def siftUp : List HeapEntry → HeapEntry → ℕ → List HeapEntry
  | l, _, 0 => l
  | l, e, i + 1 =>
    let p := i / 2
    if (l.getD p (0, 0)).2 ≤ e.2 then l
    else siftUp ((l.set (i + 1) (l.getD p (0, 0))).set p e) e p
termination_by _ _ i => i
decreasing_by
  omega

/-- Embedding of `MinHeapPair.push`: append the pair, then sift it up from
the last index. -/
def heapPush (l : List HeapEntry) (node : ℕ) (key : ℝ) : List HeapEntry :=
  siftUp (l ++ [(node, key)]) (node, key) l.length

/-- Sift-down phase of `MinHeapPair.pop`, from index `i`. -/
def siftDown (l : List HeapEntry) (i : ℕ) : List HeapEntry :=
  if h : 2 * i + 1 < l.length then
    let ln := 2 * i + 1
    let r := ln + 1
    let m := if r < l.length ∧ (l.getD r (0, 0)).2 < (l.getD ln (0, 0)).2 then r else ln
    if (l.getD i (0, 0)).2 ≤ (l.getD m (0, 0)).2 then l
    else siftDown ((l.set i (l.getD m (0, 0))).set m (l.getD i (0, 0))) m
  else l
termination_by l.length - i
decreasing_by
  simp only [List.length_set]
  split <;> omega

/-- Embedding of `MinHeapPair.pop`: return the root; move the last entry to
the root and sift it down (when more than one entry was present). -/
def heapPop (l : List HeapEntry) : Option (HeapEntry × List HeapEntry) :=
  match l with
  | [] => none
  | root :: rest =>
    if rest.isEmpty then some (root, [])
    else some (root, siftDown ((root :: rest).dropLast.set 0
        ((root :: rest).getLast (List.cons_ne_nil _ _))) 0)

/-- Replacing index `k` by `a` and moving the old entry `t[k]` to the front
is a permutation of putting `a` in front. -/
theorem getD_cons_set_perm {α : Type} (d : α) :
    ∀ (t : List α) (k : ℕ), k < t.length →
      ∀ a : α, List.Perm (t.getD k d :: t.set k a) (a :: t) := by
  intro t
  induction t with
  | nil => intro k hk; simp at hk
  | cons b t' ih =>
    intro k hk a
    cases k with
    | zero =>
      simpa using List.Perm.swap a b t'
    | succ k' =>
      have hk' : k' < t'.length := by simpa using hk
      have h1 : List.Perm (t'.getD k' d :: b :: t'.set k' a)
          (b :: t'.getD k' d :: t'.set k' a) := List.Perm.swap b _ _
      have h2 : List.Perm (b :: t'.getD k' d :: t'.set k' a) (b :: a :: t') :=
        List.Perm.cons b (ih k' hk' a)
      have h3 : List.Perm (b :: a :: t') (a :: b :: t') := List.Perm.swap a b t'
      simpa using (h1.trans h2).trans h3

/-- Swapping two distinct in-range positions of a list is a permutation. -/
theorem set_set_perm {α : Type} (d : α) :
    ∀ (l : List α) (i j : ℕ), i < l.length → j < l.length → i ≠ j →
      List.Perm ((l.set i (l.getD j d)).set j (l.getD i d)) l := by
  intro l
  induction l with
  | nil => intro i j hi; simp at hi
  | cons a t ih =>
    intro i j hi hj hij
    cases i with
    | zero =>
      cases j with
      | zero => exact absurd rfl hij
      | succ j' =>
        have hj' : j' < t.length := by simpa using hj
        simpa using getD_cons_set_perm d t j' hj' a
    | succ i' =>
      cases j with
      | zero =>
        have hi' : i' < t.length := by simpa using hi
        simpa using getD_cons_set_perm d t i' hi' a
      | succ j' =>
        have hi' : i' < t.length := by simpa using hi
        have hj' : j' < t.length := by simpa using hj
        have hij' : i' ≠ j' := fun h => hij (by simp [h])
        simpa using List.Perm.cons a (ih i' j' hi' hj' hij')

/-- Reading an index just written by `List.set`. -/
theorem getD_set_self {α : Type} (l : List α) (i : ℕ) (a d : α) (h : i < l.length) :
    (l.set i a).getD i d = a := by
  rw [List.getD_eq_getElem _ _ (by simpa using h)]
  simp

/-- Reading an index distinct from the one written by `List.set`. -/
theorem getD_set_ne {α : Type} (l : List α) {i j : ℕ} (a d : α) (h : j < l.length)
    (hij : i ≠ j) : (l.set i a).getD j d = l.getD j d := by
  rw [List.getD_eq_getElem _ _ (by simpa using h), List.getD_eq_getElem _ _ h]
  simp [List.getElem_set_ne, hij]

/-- Sifting up only permutes the heap entries. -/
theorem siftUp_perm :
    ∀ (i : ℕ) (l : List HeapEntry) (e : HeapEntry), i < l.length →
      l.getD i (0, 0) = e → List.Perm (siftUp l e i) l := by
  intro i
  induction i using Nat.strong_induction_on with
  | _ i ih =>
    intro l e hi hie
    match i with
    | 0 => simp [siftUp]
    | j + 1 =>
      rw [siftUp]
      by_cases hk : (l.getD (j / 2) (0, 0)).2 ≤ e.2
      · rw [if_pos hk]
      · rw [if_neg hk]
        have hp : j / 2 < l.length := lt_trans (Nat.lt_succ_of_le (Nat.div_le_self j 2)) hi
        have hne : j / 2 ≠ j + 1 := by omega
        set l' := (l.set (j + 1) (l.getD (j / 2) (0, 0))).set (j / 2) e with hl'
        have hlen : l'.length = l.length := by simp [hl']
        have h1 : List.Perm l' l := by
          rw [hl', ← hie]
          exact set_set_perm (0, 0) l (j + 1) (j / 2) hi hp (by omega)
        have h2 : List.Perm (siftUp l' e (j / 2)) l' := by
          refine ih (j / 2) (by omega) l' e (by omega) ?_
          rw [hl']
          exact getD_set_self _ _ _ _ (by simp; omega)
        exact h2.trans h1

/-- Sifting down only permutes the heap entries. -/
theorem siftDown_perm : ∀ (l : List HeapEntry) (i : ℕ), List.Perm (siftDown l i) l := by
  intro l i
  generalize hfuel : l.length - i = fuel
  induction fuel using Nat.strong_induction_on generalizing l i with
  | _ fuel ih =>
    rw [siftDown]
    by_cases h : 2 * i + 1 < l.length
    · rw [dif_pos h]
      dsimp only
      set m := if (2 * i + 1) + 1 < l.length ∧
          (l.getD ((2 * i + 1) + 1) (0, 0)).2 < (l.getD (2 * i + 1) (0, 0)).2
        then (2 * i + 1) + 1 else (2 * i + 1) with hm
      by_cases hk : (l.getD i (0, 0)).2 ≤ (l.getD m (0, 0)).2
      · rw [if_pos hk]
      · rw [if_neg hk]
        have hmlt : m < l.length := by
          rw [hm]; split
          · exact (by assumption : _ ∧ _).1
          · exact h
        have hmi : i < m := by rw [hm]; split <;> omega
        have hilt : i < l.length := lt_trans (by omega) h
        set l' := (l.set i (l.getD m (0, 0))).set m (l.getD i (0, 0)) with hl'
        have hlen : l'.length = l.length := by simp [hl']
        have h1 : List.Perm l' l := set_set_perm (0, 0) l i m hilt hmlt (by omega)
        have h2 : List.Perm (siftDown l' m) l' := by
          refine ih (l'.length - m) ?_ l' m rfl
          omega
        exact h2.trans h1
    · rw [dif_neg h]

/-- Specification of `heapPush` as a bag operation: pushing inserts the
pair and permutes nothing else. -/
theorem heapPush_perm (l : List HeapEntry) (node : ℕ) (key : ℝ) :
    List.Perm (heapPush l node key) ((node, key) :: l) := by
  unfold heapPush
  have h1 : List.Perm (siftUp (l ++ [(node, key)]) (node, key) l.length)
      (l ++ [(node, key)]) := by
    refine siftUp_perm l.length (l ++ [(node, key)]) (node, key) (by simp) ?_
    rw [List.getD_append_right _ _ _ _ (le_refl _)]
    simp
  exact h1.trans (List.perm_append_singleton _ _)

/-- Popping an empty heap yields nothing. -/
theorem heapPop_nil : heapPop [] = none := rfl

/-- Popping yields `none` only on the empty heap. -/
theorem heapPop_eq_none {l : List HeapEntry} (h : heapPop l = none) : l = [] := by
  cases l with
  | nil => rfl
  | cons root rest =>
    by_cases hr : rest.isEmpty <;> simp [heapPop, hr] at h

/-- Specification of `heapPop` as a bag operation: the returned entry was in
the heap, and the remaining heap is the old bag minus that occurrence. -/
theorem heapPop_perm {l : List HeapEntry} {e : HeapEntry} {l' : List HeapEntry}
    (h : heapPop l = some (e, l')) : List.Perm l (e :: l') := by
  cases l with
  | nil => simp [heapPop] at h
  | cons root rest =>
    by_cases hr : rest.isEmpty
    · have hrest : rest = [] := List.isEmpty_iff.mp hr
      simp [heapPop, hr] at h
      obtain ⟨he, hl'⟩ := h
      subst he; subst hl'; subst hrest
      exact List.Perm.refl _
    · simp [heapPop, hr] at h
      obtain ⟨he, hl'⟩ := h
      subst he
      have hrest : rest ≠ [] := fun hc => hr (by simp [hc])
      have hperm : List.Perm l' ((root :: rest).dropLast.set 0
          ((root :: rest).getLast (List.cons_ne_nil _ _))) := by
        rw [← hl']; exact siftDown_perm _ 0
      have hdl : (root :: rest).dropLast = root :: rest.dropLast := by
        cases rest with
        | nil => exact absurd rfl hrest
        | cons b t => simp
      have hgl : (root :: rest).getLast (List.cons_ne_nil _ _) = rest.getLast hrest :=
        List.getLast_cons hrest
      have hset : (root :: rest).dropLast.set 0
          ((root :: rest).getLast (List.cons_ne_nil _ _)) =
          rest.getLast hrest :: rest.dropLast := by
        rw [hdl, hgl]; rfl
      have hperm2 : List.Perm (rest.getLast hrest :: rest.dropLast) rest := by
        have := List.perm_append_singleton (rest.getLast hrest) rest.dropLast
        rw [List.dropLast_append_getLast hrest] at this
        exact this.symm
      refine List.Perm.cons root ?_ |>.symm.symm.trans (List.Perm.refl _)
      exact ((hperm.trans (by rw [hset])).trans hperm2).symm

/-- Embedding of the `MoistureDijkstraParams` record; optional fields are
`Option`s, resolved against the same defaults as the source.  The source
ignores its `oceanStepCost` field (line 100 hard-codes `0.001`) and its
`treatDiagonal` field; `continentalPenalty` is not part of the record. -/
structure MoistureDijkstraParams where
  pixelKm : Option ℝ := none
  L0Km : Option ℝ := none
  oceanStepCost : Option ℝ := none
  landBaseMultiplier : Option ℝ := none
  coldMultiplier : Option (ℕ → ℝ) := none
  elevationPenalty : Option (ℕ → ℕ → Dir4 → ℝ) := none
  directionPenalty : Option (ℕ → ℕ → Dir4 → ℝ) := none

/-- Resolved `pixelKm` (`params.pixelKm ?? 50`). -/
def resolvedPixelKm (ps : MoistureDijkstraParams) : ℝ := ps.pixelKm.getD 50

/-- Resolved `L0Km` (`params.L0Km ?? 3000`). -/
def resolvedL0Km (ps : MoistureDijkstraParams) : ℝ := ps.L0Km.getD 3000

/-- Hard-coded ocean step cost (`const oceanStepCost = 0.001`). -/
def oceanStepCost : ℝ := 0.001

/-- Resolved `landBaseMultiplier` (`params.landBaseMultiplier ?? 1.0`). -/
def resolvedLandBaseMultiplier (ps : MoistureDijkstraParams) : ℝ :=
  ps.landBaseMultiplier.getD 1

/-- Guarded e-folding distance (`const safeL0 = L0Km > 0 ? L0Km : 1`). -/
def safeL0 (ps : MoistureDijkstraParams) : ℝ :=
  if 0 < resolvedL0Km ps then resolvedL0Km ps else 1

/-- Baseline land step cost
(`(pixelKm / safeL0) * landBaseMultiplier`). -/
def baselineLandStep (ps : MoistureDijkstraParams) : ℝ :=
  resolvedPixelKm ps / safeL0 ps * resolvedLandBaseMultiplier ps

/-- Clamping of an ocean cell's source strength before the logarithm uses
`eps = 1e-6`. -/
def dijkstraEps : ℝ := 1e-6

/-- Seed cost of an ocean source cell:
`c0 = -Math.log(clampSourceStrength(sourceStrength[p], eps))`. -/
def seedCost (sourceStrength : List ℝ) (p : ℕ) : ℝ :=
  -Real.log (clampSourceStrength (sourceStrength.getD p 0) dijkstraEps)

/-- Embedding of the closure `stepCostTo(u, v, dir)` of the engine. -/
def stepCostTo (isLand : List Bool) (ps : MoistureDijkstraParams)
    (u v : ℕ) (d : Dir4) : ℝ :=
  let isOcean := isLand.getD v false = false
  let c0 := if isOcean then oceanStepCost else baselineLandStep ps
  let c1 := match ps.coldMultiplier with
    | none => c0
    | some f => c0 * clampAtLeast1 (f v)
  let c2 := match ps.elevationPenalty with
    | none => c1
    | some f => c1 + clampNonNeg (f u v d)
  let c3 := match ps.directionPenalty with
    | none => c2
    | some f => c2 + clampNonNeg (f u v d)
  if c3 < 0 then 0 else c3

/-- The mutable state of the engine: the `cost`, `prev` and `src` arrays
(modelled as functions out of the cell index) and the binary heap.
`Infinity` in the `cost` array is `⊤`. -/
structure DijkstraState where
  cost : ℕ → WithTop ℝ
  prev : ℕ → ℤ
  src : ℕ → ℤ
  heap : List HeapEntry

/-- The state after the array initialisation loops (lines 113-120):
every cost `Infinity`, every predecessor and source `-1`, empty heap. -/
def initState : DijkstraState :=
  { cost := fun _ => ⊤
    prev := fun _ => -1
    src := fun _ => -1
    heap := [] }

/-- Multi-source initialisation (lines 122-131): every ocean cell gets its
seed cost, itself as source, predecessor `-1`, and is pushed on the heap. -/
def seedState (isLand : List Bool) (sourceStrength : List ℝ) (N : ℕ) : DijkstraState :=
  (List.range N).foldl
    (fun st p =>
      if isLand.getD p false then st
      else
        let c0 := seedCost sourceStrength p
        { cost := Function.update st.cost p (c0 : WithTop ℝ)
          prev := Function.update st.prev p (-1)
          src := Function.update st.src p (p : ℤ)
          heap := heapPush st.heap p c0 })
    initState

/-- One neighbour relaxation (the body of each of the four `if` blocks in
the main loop): improve strictly, record predecessor, inherit source, push. -/
def relax (isLand : List Bool) (ps : MoistureDijkstraParams)
    (st : DijkstraState) (u : ℕ) (cu : ℝ) (v : ℕ) (d : Dir4) : DijkstraState :=
  let nv := cu + stepCostTo isLand ps u v d
  if (nv : WithTop ℝ) < st.cost v then
    { cost := Function.update st.cost v (nv : WithTop ℝ)
      prev := Function.update st.prev v (u : ℤ)
      src := Function.update st.src v (st.src u)
      heap := heapPush st.heap v nv }
  else st

/-- Processing of a popped node: the four guarded neighbour relaxations
east, west, south, north, in source order. -/
def processNode (isLand : List Bool) (ps : MoistureDijkstraParams)
    (width height : ℕ) (st : DijkstraState) (u : ℕ) (cu : ℝ) : DijkstraState :=
  let x := u % width
  let y := u / width
  let st1 := if x + 1 < width then relax isLand ps st u cu (u + 1) Dir4.east else st
  let st2 := if 1 ≤ x then relax isLand ps st1 u cu (u - 1) Dir4.west else st1
  let st3 := if y + 1 < height then relax isLand ps st2 u cu (u + width) Dir4.south else st2
  if 1 ≤ y then relax isLand ps st3 u cu (u - width) Dir4.north else st3

/-- The main `while (heap.size() > 0)` loop, with explicit fuel.  A pop
whose key exceeds the cell's current best is skipped (lazy deletion). -/
def runLoop (isLand : List Bool) (ps : MoistureDijkstraParams)
    (width height : ℕ) : ℕ → DijkstraState → DijkstraState
  | 0, st => st
  | fuel + 1, st =>
    match heapPop st.heap with
    | none => st
    | some ((u, cu), h') =>
      let st' : DijkstraState := { st with heap := h' }
      if st'.cost u < (cu : WithTop ℝ) then runLoop isLand ps width height fuel st'
      else runLoop isLand ps width height fuel (processNode isLand ps width height st' u cu)

/-- The final state of a run of the engine. -/
def dijkstraFinal (isLand : List Bool) (sourceStrength : List ℝ)
    (width height : ℕ) (ps : MoistureDijkstraParams) (fuel : ℕ) : DijkstraState :=
  runLoop isLand ps width height fuel (seedState isLand sourceStrength (width * height))

/-- Conversion of a final cost to a moisture value:
`Number.isFinite(c) ? Math.exp(-c) : 0`. -/
def moistureOf (c : WithTop ℝ) : ℝ :=
  c.recTopCoe 0 (fun x => Real.exp (-x))

/-- The result record of the engine. -/
structure MoistureDijkstraResult where
  moisture : List ℝ
  src : List ℤ
  prev : List ℤ
  cost : List (WithTop ℝ)

/-- Embedding of `computeMoistureAvailabilityDijkstra`: length guards that
throw (modelled with `Except.error`), seeding, the heap loop, and the final
`moisture = exp(-cost)` pass. -/
def computeMoistureAvailabilityDijkstra (isLand : List Bool) (sourceStrength : List ℝ)
    (width height : ℕ) (ps : MoistureDijkstraParams) (fuel : ℕ) :
    Except String MoistureDijkstraResult :=
  if isLand.length ≠ width * height then Except.error "isLand length mismatch"
  else if sourceStrength.length ≠ width * height then
    Except.error "sourceStrength length mismatch"
  else
    let final := dijkstraFinal isLand sourceStrength width height ps fuel
    Except.ok
      { moisture := (List.range (width * height)).map (fun p => moistureOf (final.cost p))
        src := (List.range (width * height)).map final.src
        prev := (List.range (width * height)).map final.prev
        cost := (List.range (width * height)).map final.cost }

/-- The cell reached by one grid move (arithmetic on row-major indices,
as in the source: east `u+1`, west `u-1`, south `u+width`, north
`u-width`). -/
def move (W : ℕ) (u : ℕ) : Dir4 → ℕ
  | Dir4.east => u + 1
  | Dir4.west => u - 1
  | Dir4.south => u + W
  | Dir4.north => u - W

/-- The boundary guard the loop checks before traversing `u` in direction
`d` (with `x = u % width`, `y = (u / width) | 0`). -/
def validStep (W H : ℕ) (u : ℕ) : Dir4 → Prop
  | Dir4.east => u % W + 1 < W
  | Dir4.west => 1 ≤ u % W
  | Dir4.south => u / W + 1 < H
  | Dir4.north => 1 ≤ u / W

/-- Validity of a whole sequence of moves starting at `u`. -/
def validSteps (W H : ℕ) : ℕ → List Dir4 → Prop
  | _, [] => True
  | u, d :: ds => validStep W H u d ∧ validSteps W H (move W u d) ds

/-- Endpoint of a sequence of moves. -/
def walkEnd (W : ℕ) (u : ℕ) (ds : List Dir4) : ℕ := ds.foldl (move W) u

/-- Accumulated edge cost of a sequence of moves starting at `u`. -/
def stepsCost (isLand : List Bool) (ps : MoistureDijkstraParams) (W : ℕ) :
    ℕ → List Dir4 → ℝ
  | _, [] => 0
  | u, d :: ds =>
    stepCostTo isLand ps u (move W u d) d + stepsCost isLand ps W (move W u d) ds

/-- Total cost of a path: seed cost of its ocean origin plus the edge
costs along it. -/
def walkCost (isLand : List Bool) (sourceStrength : List ℝ)
    (ps : MoistureDijkstraParams) (W : ℕ) (o : ℕ) (ds : List Dir4) : ℝ :=
  seedCost sourceStrength o + stepsCost isLand ps W o ds

/-- A 4-connected directed path from the ocean cell `o` to the cell `p`. -/
def ValidWalk (isLand : List Bool) (W H : ℕ) (o : ℕ) (ds : List Dir4) (p : ℕ) : Prop :=
  o < W * H ∧ isLand.getD o false = false ∧ validSteps W H o ds ∧ walkEnd W o ds = p

/-- A cell is reachable when some 4-connected directed path from some ocean
cell ends there. -/
def Reachable (isLand : List Bool) (W H : ℕ) (p : ℕ) : Prop :=
  ∃ o ds, ValidWalk isLand W H o ds p

/-- The final clamp `c < 0 ? 0 : c` is nonnegative. -/
theorem finalClamp_nonneg (x : ℝ) : 0 ≤ if x < 0 then 0 else x := by
  by_cases h : x < 0
  · simp [h]
  · simp only [h, if_false]
    exact le_of_not_lt h

/-- Every edge cost produced by `stepCostTo` is nonnegative (final clamp). -/
theorem stepCostTo_nonneg (isLand : List Bool) (ps : MoistureDijkstraParams)
    (u v : ℕ) (d : Dir4) : 0 ≤ stepCostTo isLand ps u v d := by
  unfold stepCostTo
  dsimp only
  exact finalClamp_nonneg _

/-- The clamped source strength lies in `(0, 1]`. -/
theorem clampSourceStrength_mem (x : ℝ) :
    0 < clampSourceStrength x dijkstraEps ∧ clampSourceStrength x dijkstraEps ≤ 1 := by
  unfold clampSourceStrength dijkstraEps
  split
  · norm_num
  · split
    · norm_num
    · constructor
      · linarith [show (1e-6 : ℝ) > 0 by norm_num, not_le.mp (by assumption : ¬ _ ≤ (1e-6 : ℝ))]
      · linarith [not_le.mp (by assumption : ¬ (1 : ℝ) ≤ _)]

/-- Every seed cost is nonnegative: the clamped strength is in `(0,1]`, so
its logarithm is nonpositive. -/
theorem seedCost_nonneg (sourceStrength : List ℝ) (p : ℕ) :
    0 ≤ seedCost sourceStrength p := by
  unfold seedCost
  have h := clampSourceStrength_mem (sourceStrength.getD p 0)
  have := Real.log_nonpos (le_of_lt h.1) h.2
  linarith

/-- Accumulated step costs are nonnegative. -/
theorem stepsCost_nonneg (isLand : List Bool) (ps : MoistureDijkstraParams) (W : ℕ) :
    ∀ (ds : List Dir4) (u : ℕ), 0 ≤ stepsCost isLand ps W u ds := by
  intro ds
  induction ds with
  | nil => intro u; simp [stepsCost]
  | cons d ds ih =>
    intro u
    have := stepCostTo_nonneg isLand ps u (move W u d) d
    have := ih (move W u d)
    simp only [stepsCost]
    linarith

/-- Path costs are nonnegative. -/
theorem walkCost_nonneg (isLand : List Bool) (sourceStrength : List ℝ)
    (ps : MoistureDijkstraParams) (W : ℕ) (o : ℕ) (ds : List Dir4) :
    0 ≤ walkCost isLand sourceStrength ps W o ds := by
  unfold walkCost
  have := seedCost_nonneg sourceStrength o
  have := stepsCost_nonneg isLand ps W ds o
  linarith

/-- A valid move from an in-bounds cell stays in bounds. -/
theorem move_lt_of_validStep {W H u : ℕ} (hu : u < W * H) {d : Dir4}
    (hv : validStep W H u d) : move W u d < W * H := by
  have hW : 0 < W := by
    rcases Nat.eq_zero_or_pos W with h | h
    · subst h; simp at hu
    · exact h
  have hmod : u % W + W * (u / W) = u := Nat.mod_add_div u W
  cases d with
  | east =>
    have hx : u % W + 1 < W := hv
    have hy : u / W < H := Nat.div_lt_iff_lt_mul hW |>.mpr (by rwa [mul_comm])
    have h1 : W * (u / W + 1) ≤ W * H := Nat.mul_le_mul_left W hy
    have h2 : W * (u / W + 1) = W * (u / W) + W := Nat.mul_succ W (u / W)
    simp only [move]
    omega
  | west =>
    simp only [move]
    omega
  | south =>
    have hy : u / W + 1 < H := hv
    have h1 : W * (u / W + 2) ≤ W * H := Nat.mul_le_mul_left W (by omega)
    have h2 : W * (u / W + 2) = W * (u / W) + 2 * W := by ring
    have h3 : u % W < W := Nat.mod_lt _ hW
    simp only [move]
    omega
  | north =>
    simp only [move]
    omega

/-- Endpoints of valid walks from in-bounds cells are in bounds. -/
theorem walkEnd_lt {W H : ℕ} :
    ∀ (ds : List Dir4) (u : ℕ), u < W * H → validSteps W H u ds → walkEnd W u ds < W * H := by
  intro ds
  induction ds with
  | nil => intro u hu _; simpa [walkEnd] using hu
  | cons d ds ih =>
    intro u hu hv
    obtain ⟨hd, hds⟩ := hv
    have := move_lt_of_validStep hu hd
    simpa [walkEnd] using ih (move W u d) this hds

/-- Appending one move to a walk: endpoint. -/
theorem walkEnd_append (W : ℕ) (u : ℕ) (ds : List Dir4) (d : Dir4) :
    walkEnd W u (ds ++ [d]) = move W (walkEnd W u ds) d := by
  simp [walkEnd, List.foldl_append]

/-- Appending one move to a walk: validity. -/
theorem validSteps_append (W H : ℕ) :
    ∀ (ds : List Dir4) (u : ℕ) (d : Dir4),
      validSteps W H u (ds ++ [d]) ↔
        validSteps W H u ds ∧ validStep W H (walkEnd W u ds) d := by
  intro ds
  induction ds with
  | nil => intro u d; simp [validSteps, walkEnd]
  | cons d0 ds ih =>
    intro u d
    simp only [List.cons_append, validSteps, walkEnd, List.foldl_cons, List.append_eq]
    rw [ih (move W u d0) d]
    simp [walkEnd]
    tauto

/-- Appending one move to a walk: cost. -/
theorem stepsCost_append (isLand : List Bool) (ps : MoistureDijkstraParams) (W : ℕ) :
    ∀ (ds : List Dir4) (u : ℕ) (d : Dir4),
      stepsCost isLand ps W u (ds ++ [d]) =
        stepsCost isLand ps W u ds +
          stepCostTo isLand ps (walkEnd W u ds) (move W (walkEnd W u ds) d) d := by
  intro ds
  induction ds with
  | nil => intro u d; simp [stepsCost, walkEnd]
  | cons d0 ds ih =>
    intro u d
    simp only [List.cons_append, stepsCost, walkEnd, List.foldl_cons, List.append_eq]
    rw [ih (move W u d0) d]
    simp [walkEnd]
    ring

section Invariant

variable (isLand : List Bool) (sourceStrength : List ℝ)
variable (ps : MoistureDijkstraParams) (W H : ℕ)

/-- Loop invariant, part 1: every finite cost is realised by some valid
path from an ocean cell. -/
def Achievable (st : DijkstraState) : Prop :=
  ∀ v : ℕ, st.cost v ≠ ⊤ →
    ∃ o ds, ValidWalk isLand W H o ds v ∧
      st.cost v = (walkCost isLand sourceStrength ps W o ds : WithTop ℝ)

/-- Loop invariant, part 2: heap nodes are in bounds and no heap key is
below the node's current cost (so the lazy-deletion test is sound). -/
def HeapKeysOk (st : DijkstraState) : Prop :=
  ∀ e ∈ st.heap, e.1 < W * H ∧ st.cost e.1 ≤ (e.2 : WithTop ℝ)

/-- Relaxation debt of a single cell: either a heap entry carrying exactly
the cell's current cost is pending, or all of the cell's valid outgoing
edges are already relaxed. -/
def DebtAt (st : DijkstraState) (u : ℕ) : Prop :=
  (∃ k : ℝ, (u, k) ∈ st.heap ∧ (k : WithTop ℝ) = st.cost u) ∨
  (∀ d : Dir4, validStep W H u d →
    st.cost (move W u d) ≤ st.cost u + (stepCostTo isLand ps u (move W u d) d : WithTop ℝ))

/-- Loop invariant, part 3: every in-bounds cell with a finite cost carries
no outstanding relaxation debt. -/
def Debt (st : DijkstraState) : Prop :=
  ∀ u : ℕ, u < W * H → st.cost u ≠ ⊤ → DebtAt isLand ps W H st u

/-- Loop invariant, part 4: every ocean cell's cost stays at or below its
seed cost. -/
def OceanBound (st : DijkstraState) : Prop :=
  ∀ o : ℕ, o < W * H → isLand.getD o false = false →
    st.cost o ≤ (seedCost sourceStrength o : WithTop ℝ)

/-- The conjunction of all four invariant parts. -/
structure Inv (st : DijkstraState) : Prop where
  achievable : Achievable isLand sourceStrength ps W H st
  keys : HeapKeysOk W H st
  debt : Debt isLand ps W H st
  ocean : OceanBound isLand sourceStrength W H st

/-- One iteration of the seeding fold. -/
def seedIter (st : DijkstraState) (p : ℕ) : DijkstraState :=
  if isLand.getD p false then st
  else
    { cost := Function.update st.cost p ((seedCost sourceStrength p : ℝ) : WithTop ℝ)
      prev := Function.update st.prev p (-1)
      src := Function.update st.src p (p : ℤ)
      heap := heapPush st.heap p (seedCost sourceStrength p) }

/-- The seeding loop is the fold of `seedIter` over the cell indices. -/
theorem seedState_eq_foldl (N : ℕ) :
    seedState isLand sourceStrength N =
      (List.range N).foldl (seedIter isLand sourceStrength) initState := rfl

/-- The three arrays after folding `seedIter` over any index list: any
ocean index in the list got its seed cost, predecessor `-1` and itself as
source; every other index is untouched. -/
theorem seedIter_foldl_arrays (l : List ℕ) (st : DijkstraState) (p : ℕ) :
    ((l.foldl (seedIter isLand sourceStrength) st).cost p =
      if p ∈ l ∧ isLand.getD p false = false
        then ((seedCost sourceStrength p : ℝ) : WithTop ℝ) else st.cost p) ∧
    ((l.foldl (seedIter isLand sourceStrength) st).prev p =
      if p ∈ l ∧ isLand.getD p false = false then -1 else st.prev p) ∧
    ((l.foldl (seedIter isLand sourceStrength) st).src p =
      if p ∈ l ∧ isLand.getD p false = false then (p : ℤ) else st.src p) := by
  induction l generalizing st with
  | nil => simp
  | cons a l ih =>
    simp only [List.foldl_cons]
    obtain ⟨ihc, ihp, ihs⟩ := ih (seedIter isLand sourceStrength st a)
    rw [ihc, ihp, ihs]
    by_cases hc : p ∈ l ∧ isLand.getD p false = false
    · have hc' : p ∈ a :: l ∧ isLand.getD p false = false :=
        ⟨List.mem_cons_of_mem a hc.1, hc.2⟩
      rw [if_pos hc, if_pos hc, if_pos hc, if_pos hc', if_pos hc', if_pos hc']
      exact ⟨rfl, rfl, rfl⟩
    · rw [if_neg hc, if_neg hc, if_neg hc]
      by_cases hpa : p = a
      · subst hpa
        by_cases hoc : isLand.getD p false = false
        · have hc' : p ∈ p :: l ∧ isLand.getD p false = false :=
            ⟨List.mem_cons_self p l, hoc⟩
          rw [if_pos hc', if_pos hc', if_pos hc']
          unfold seedIter
          rw [if_neg (by rw [hoc]; simp)]
          refine ⟨?_, ?_, ?_⟩ <;> exact Function.update_same _ _ _
        · have hc' : ¬ (p ∈ p :: l ∧ isLand.getD p false = false) := fun h => hoc h.2
          rw [if_neg hc', if_neg hc', if_neg hc']
          unfold seedIter
          rw [if_pos (by revert hoc; cases isLand.getD p false <;> simp)]
          exact ⟨rfl, rfl, rfl⟩
      · have hc' : ¬ (p ∈ a :: l ∧ isLand.getD p false = false) := by
          intro h
          rcases List.mem_cons.mp h.1 with h1 | h1
          · exact hpa h1
          · exact hc ⟨h1, h.2⟩
        rw [if_neg hc', if_neg hc', if_neg hc']
        unfold seedIter
        by_cases hA : isLand.getD a false = true
        · rw [if_pos hA]
          exact ⟨rfl, rfl, rfl⟩
        · rw [if_neg hA]
          refine ⟨?_, ?_, ?_⟩ <;> exact Function.update_noteq hpa _ _

/-- Heap membership after folding `seedIter`. -/
theorem seedIter_foldl_heap (l : List ℕ) (st : DijkstraState) (e : HeapEntry) :
    e ∈ (l.foldl (seedIter isLand sourceStrength) st).heap ↔
      (e.1 ∈ l ∧ isLand.getD e.1 false = false ∧ e.2 = seedCost sourceStrength e.1) ∨
        e ∈ st.heap := by
  induction l generalizing st with
  | nil => simp
  | cons a l ih =>
    simp only [List.foldl_cons]
    rw [ih]
    unfold seedIter
    by_cases hoc : isLand.getD a false = true
    · rw [if_pos hoc]
      constructor
      · rintro (h | h)
        · exact Or.inl ⟨List.mem_cons_of_mem a h.1, h.2.1, h.2.2⟩
        · exact Or.inr h
      · rintro (⟨hm, ho, hk⟩ | h)
        · rcases List.mem_cons.mp hm with h1 | h1
          · exfalso; rw [h1] at ho; rw [hoc] at ho; simp at ho
          · exact Or.inl ⟨h1, ho, hk⟩
        · exact Or.inr h
    · have hoc' : isLand.getD a false = false := by simpa using hoc
      rw [if_neg hoc]
      have hmem : e ∈ heapPush st.heap a (seedCost sourceStrength a) ↔
          e = (a, seedCost sourceStrength a) ∨ e ∈ st.heap := by
        rw [(heapPush_perm st.heap a (seedCost sourceStrength a)).mem_iff]
        simp
      dsimp only
      rw [hmem]
      constructor
      · rintro (h | h | h)
        · exact Or.inl ⟨List.mem_cons_of_mem a h.1, h.2.1, h.2.2⟩
        · refine Or.inl ⟨?_, ?_, ?_⟩
          · rw [h]; exact List.mem_cons_self a l
          · rw [h]; exact hoc'
          · rw [h]
        · exact Or.inr h
      · rintro (⟨hm, ho, hk⟩ | h)
        · rcases List.mem_cons.mp hm with h1 | h1
          · refine Or.inr (Or.inl ?_)
            obtain ⟨e1, e2⟩ := e
            simp only at h1 hk
            rw [h1] at hk ⊢
            rw [hk]
          · exact Or.inl ⟨h1, ho, hk⟩
        · exact Or.inr (Or.inr h)

/-- Cost array of the seeded state. -/
theorem seedState_cost (N p : ℕ) :
    (seedState isLand sourceStrength N).cost p =
      if p < N ∧ isLand.getD p false = false
        then ((seedCost sourceStrength p : ℝ) : WithTop ℝ) else ⊤ := by
  rw [seedState_eq_foldl]
  rw [(seedIter_foldl_arrays isLand sourceStrength (List.range N) initState p).1]
  simp [initState, List.mem_range]

/-- Predecessor array of the seeded state: everywhere `-1`. -/
theorem seedState_prev (N p : ℕ) : (seedState isLand sourceStrength N).prev p = -1 := by
  rw [seedState_eq_foldl]
  rw [(seedIter_foldl_arrays isLand sourceStrength (List.range N) initState p).2.1]
  split <;> simp [initState]

/-- Source array of the seeded state. -/
theorem seedState_src (N p : ℕ) :
    (seedState isLand sourceStrength N).src p =
      if p < N ∧ isLand.getD p false = false then (p : ℤ) else -1 := by
  rw [seedState_eq_foldl]
  rw [(seedIter_foldl_arrays isLand sourceStrength (List.range N) initState p).2.2]
  simp [initState, List.mem_range]

/-- Heap membership of the seeded state. -/
theorem seedState_heap (N : ℕ) (e : HeapEntry) :
    e ∈ (seedState isLand sourceStrength N).heap ↔
      e.1 < N ∧ isLand.getD e.1 false = false ∧ e.2 = seedCost sourceStrength e.1 := by
  rw [seedState_eq_foldl]
  rw [seedIter_foldl_heap isLand sourceStrength (List.range N) initState e]
  simp [initState, List.mem_range]

/-- The invariant holds right after seeding. -/
theorem seedState_inv :
    Inv isLand sourceStrength ps W H (seedState isLand sourceStrength (W * H)) := by
  constructor
  · intro v hv
    rw [seedState_cost] at hv ⊢
    by_cases hc : v < W * H ∧ isLand.getD v false = false
    · refine ⟨v, [], ⟨hc.1, hc.2, trivial, rfl⟩, ?_⟩
      rw [if_pos hc]
      simp [walkCost, stepsCost]
    · rw [if_neg hc] at hv
      exact absurd rfl hv
  · intro e he
    rw [seedState_heap] at he
    obtain ⟨h1, h2, h3⟩ := he
    refine ⟨h1, ?_⟩
    rw [seedState_cost, if_pos ⟨h1, h2⟩, h3]
  · intro u hu hne
    rw [seedState_cost] at hne
    by_cases hc : u < W * H ∧ isLand.getD u false = false
    · refine Or.inl ⟨seedCost sourceStrength u, ?_, ?_⟩
      · rw [seedState_heap]
        exact ⟨hc.1, hc.2, rfl⟩
      · rw [seedState_cost, if_pos hc]
    · rw [if_neg hc] at hne
      exact absurd rfl hne
  · intro o ho hoc
    rw [seedState_cost, if_pos ⟨ho, hoc⟩]

/-- Relaxation never increases any cost. -/
theorem relax_cost_mono (st : DijkstraState) (u : ℕ) (cu : ℝ) (v : ℕ) (d : Dir4)
    (w : ℕ) : (relax isLand ps st u cu v d).cost w ≤ st.cost w := by
  unfold relax
  dsimp only
  split
  · next h =>
    dsimp only
    by_cases hwv : w = v
    · subst hwv
      rw [Function.update_same]
      exact le_of_lt h
    · rw [Function.update_noteq hwv]
  · exact le_refl _

/-- Relaxation leaves the cost of every other cell unchanged. -/
theorem relax_cost_ne (st : DijkstraState) (u : ℕ) (cu : ℝ) (v : ℕ) (d : Dir4)
    (w : ℕ) (hwv : w ≠ v) : (relax isLand ps st u cu v d).cost w = st.cost w := by
  unfold relax
  dsimp only
  split
  · dsimp only
    rw [Function.update_noteq hwv]
  · rfl

/-- After relaxing `v` from `u`, the cost of `v` is at most
`cu + stepCostTo u v`. -/
theorem relax_cost_le (st : DijkstraState) (u : ℕ) (cu : ℝ) (v : ℕ) (d : Dir4) :
    (relax isLand ps st u cu v d).cost v ≤
      ((cu + stepCostTo isLand ps u v d : ℝ) : WithTop ℝ) := by
  unfold relax
  dsimp only
  split
  · dsimp only
    rw [Function.update_same]
  · next h => exact le_of_not_lt h

/-- Relaxation only adds heap entries. -/
theorem relax_heap_mem (st : DijkstraState) (u : ℕ) (cu : ℝ) (v : ℕ) (d : Dir4)
    (e : HeapEntry) (he : e ∈ st.heap) : e ∈ (relax isLand ps st u cu v d).heap := by
  unfold relax
  dsimp only
  split
  · exact ((heapPush_perm st.heap v _).mem_iff).mpr (List.mem_cons_of_mem _ he)
  · exact he

/-- Relaxation preserves the heap-key invariant. -/
theorem relax_keys (st : DijkstraState) (u : ℕ) (cu : ℝ) (v : ℕ) (d : Dir4)
    (hvN : v < W * H) (hK : HeapKeysOk W H st) :
    HeapKeysOk W H (relax isLand ps st u cu v d) := by
  intro e he
  unfold relax at he ⊢
  dsimp only at he ⊢
  by_cases h : ((cu + stepCostTo isLand ps u v d : ℝ) : WithTop ℝ) < st.cost v
  · rw [if_pos h] at he ⊢
    dsimp only at he ⊢
    rcases List.mem_cons.mp (((heapPush_perm st.heap v _).mem_iff).mp he) with he1 | he1
    · rw [he1]
      exact ⟨hvN, by rw [Function.update_same]⟩
    · obtain ⟨h1, h2⟩ := hK e he1
      refine ⟨h1, ?_⟩
      by_cases hev : e.1 = v
      · rw [hev, Function.update_same]
        rw [hev] at h2
        exact le_trans (le_of_lt h) h2
      · rw [Function.update_noteq hev]
        exact h2
  · rw [if_neg h] at he ⊢
    exact hK e he

/-- Relaxation preserves the ocean bound. -/
theorem relax_ocean (st : DijkstraState) (u : ℕ) (cu : ℝ) (v : ℕ) (d : Dir4)
    (hO : OceanBound isLand sourceStrength W H st) :
    OceanBound isLand sourceStrength W H (relax isLand ps st u cu v d) := by
  intro o ho hoc
  exact le_trans (relax_cost_mono isLand ps st u cu v d o) (hO o ho hoc)

/-- Relaxation preserves achievability, provided the popped node's key is
its achieved cost and the relaxed edge is a valid grid move. -/
theorem relax_achievable (st : DijkstraState) (u : ℕ) (cu : ℝ) (v : ℕ) (d : Dir4)
    (hcu : st.cost u = (cu : WithTop ℝ)) (hd : validStep W H u d) (hv : v = move W u d)
    (hA : Achievable isLand sourceStrength ps W H st) :
    Achievable isLand sourceStrength ps W H (relax isLand ps st u cu v d) := by
  intro w hw
  by_cases hwv : w = v
  · subst hwv
    unfold relax at hw ⊢
    dsimp only at hw ⊢
    by_cases h : ((cu + stepCostTo isLand ps u w d : ℝ) : WithTop ℝ) < st.cost w
    · rw [if_pos h] at hw ⊢
      dsimp only at hw ⊢
      rw [Function.update_same]
      obtain ⟨o, ds, hwk, hceq⟩ := hA u (by rw [hcu]; exact WithTop.coe_ne_top)
      have hwcu : walkCost isLand sourceStrength ps W o ds = cu := by
        rw [hcu] at hceq
        exact (WithTop.coe_eq_coe.mp hceq).symm
      obtain ⟨hoN, hooc, hsteps, hend⟩ := hwk
      refine ⟨o, ds ++ [d], ⟨hoN, hooc, ?_, ?_⟩, ?_⟩
      · rw [validSteps_append]
        rw [hend]
        exact ⟨hsteps, hd⟩
      · rw [walkEnd_append, hend, hv]
      · have hstep : walkCost isLand sourceStrength ps W o (ds ++ [d]) =
            cu + stepCostTo isLand ps u w d := by
          unfold walkCost at hwcu ⊢
          rw [stepsCost_append, hend, ← hv, ← hwcu]
          ring
        rw [hstep]
    · rw [if_neg h] at hw ⊢
      exact hA w hw
  · have hcne := relax_cost_ne isLand ps st u cu v d w hwv
    rw [hcne] at hw ⊢
    exact hA w hw

/-- If relaxation does not fire, the state is unchanged. -/
theorem relax_eq_of_not_lt (st : DijkstraState) (u : ℕ) (cu : ℝ) (v : ℕ) (d : Dir4)
    (h : ¬ ((cu + stepCostTo isLand ps u v d : ℝ) : WithTop ℝ) < st.cost v) :
    relax isLand ps st u cu v d = st := by
  unfold relax
  dsimp only
  rw [if_neg h]

/-- If relaxation fires, the new cost of `v` is exactly the relaxed value. -/
theorem relax_cost_update (st : DijkstraState) (u : ℕ) (cu : ℝ) (v : ℕ) (d : Dir4)
    (h : ((cu + stepCostTo isLand ps u v d : ℝ) : WithTop ℝ) < st.cost v) :
    (relax isLand ps st u cu v d).cost v =
      ((cu + stepCostTo isLand ps u v d : ℝ) : WithTop ℝ) := by
  unfold relax
  dsimp only
  rw [if_pos h]
  exact Function.update_same _ _ _

/-- If relaxation fires, the freshly pushed entry is in the new heap. -/
theorem relax_heap_new (st : DijkstraState) (u : ℕ) (cu : ℝ) (v : ℕ) (d : Dir4)
    (h : ((cu + stepCostTo isLand ps u v d : ℝ) : WithTop ℝ) < st.cost v) :
    (v, cu + stepCostTo isLand ps u v d) ∈ (relax isLand ps st u cu v d).heap := by
  unfold relax
  dsimp only
  rw [if_pos h]
  exact ((heapPush_perm st.heap v _).mem_iff).mpr (List.mem_cons_self _ _)

/-- Debt at a cell transfers to any state with a larger heap, the same cost
at that cell, and pointwise no larger costs. -/
theorem debtAt_mono (st st' : DijkstraState) (w : ℕ)
    (hheap : ∀ e ∈ st.heap, e ∈ st'.heap)
    (hcw : st'.cost w = st.cost w)
    (hmono : ∀ x, st'.cost x ≤ st.cost x)
    (hD : DebtAt isLand ps W H st w) : DebtAt isLand ps W H st' w := by
  rcases hD with ⟨k, hk, hkc⟩ | hrel
  · exact Or.inl ⟨k, hheap _ hk, by rw [hkc, hcw]⟩
  · refine Or.inr fun d hd => ?_
    calc st'.cost (move W w d) ≤ st.cost (move W w d) := hmono _
    _ ≤ st.cost w + (stepCostTo isLand ps w (move W w d) d : WithTop ℝ) := hrel d hd
    _ = st'.cost w + (stepCostTo isLand ps w (move W w d) d : WithTop ℝ) := by rw [hcw]

/-- Relaxation preserves debt-except-`u` (all other in-bounds finite cells
keep no outstanding debt), provided the target differs from `u`. -/
theorem relax_debtx (st : DijkstraState) (u : ℕ) (cu : ℝ) (v : ℕ) (d : Dir4)
    (hvu : v ≠ u)
    (hdx : ∀ w, w < W * H → st.cost w ≠ ⊤ → w = u ∨ DebtAt isLand ps W H st w) :
    ∀ w, w < W * H → (relax isLand ps st u cu v d).cost w ≠ ⊤ →
      w = u ∨ DebtAt isLand ps W H (relax isLand ps st u cu v d) w := by
  intro w hwN hwne
  by_cases hwu : w = u
  · exact Or.inl hwu
  · refine Or.inr ?_
    by_cases hupd : ((cu + stepCostTo isLand ps u v d : ℝ) : WithTop ℝ) < st.cost v
    · by_cases hwv : w = v
      · subst hwv
        exact Or.inl ⟨cu + stepCostTo isLand ps u w d,
          relax_heap_new isLand ps st u cu w d hupd,
          (relax_cost_update isLand ps st u cu w d hupd).symm⟩
      · have hcw := relax_cost_ne isLand ps st u cu v d w hwv
        have hwne' : st.cost w ≠ ⊤ := by rw [← hcw]; exact hwne
        rcases hdx w hwN hwne' with h | h
        · exact absurd h hwu
        · exact debtAt_mono isLand ps W H st _ w
            (relax_heap_mem isLand ps st u cu v d) hcw
            (relax_cost_mono isLand ps st u cu v d) h
    · rw [relax_eq_of_not_lt isLand ps st u cu v d hupd] at hwne ⊢
      rcases hdx w hwN hwne with h | h
      · exact absurd h hwu
      · exact h

/-- A valid move never returns to its own origin. -/
theorem move_ne_of_validStep {W H u : ℕ} (hu : u < W * H) {d : Dir4}
    (hd : validStep W H u d) : move W u d ≠ u := by
  have hW : 0 < W := by
    rcases Nat.eq_zero_or_pos W with h | h
    · subst h; simp at hu
    · exact h
  cases d with
  | east => simp [move]
  | west =>
    have h1 : 1 ≤ u % W := hd
    have h2 : u % W ≤ u := Nat.mod_le u W
    simp only [move]
    omega
  | south =>
    simp only [move]
    omega
  | north =>
    have h1 : 1 ≤ u / W := hd
    have h2 : W ≤ u := (Nat.one_le_div_iff hW).mp h1
    simp only [move]
    omega

/-- The intermediate-state bundle maintained through the four neighbour
relaxations of one popped node. -/
structure ProcState (st0 : DijkstraState) (u : ℕ) (cu : ℝ) (st : DijkstraState) : Prop where
  ach : Achievable isLand sourceStrength ps W H st
  keys : HeapKeysOk W H st
  debtx : ∀ w, w < W * H → st.cost w ≠ ⊤ → w = u ∨ DebtAt isLand ps W H st w
  ocean : OceanBound isLand sourceStrength W H st
  costu : st.cost u = (cu : WithTop ℝ)
  mono : ∀ w, st.cost w ≤ st0.cost w

/-- One relaxation stage preserves the bundle and bounds the target's cost. -/
theorem procState_relax (st0 : DijkstraState) (u : ℕ) (cu : ℝ) (st : DijkstraState)
    (hu : u < W * H) (d : Dir4) (hd : validStep W H u d)
    (hps : ProcState isLand sourceStrength ps W H st0 u cu st) :
    ProcState isLand sourceStrength ps W H st0 u cu
        (relax isLand ps st u cu (move W u d) d) ∧
      (relax isLand ps st u cu (move W u d) d).cost (move W u d) ≤
        ((cu + stepCostTo isLand ps u (move W u d) d : ℝ) : WithTop ℝ) := by
  have hvu : move W u d ≠ u := move_ne_of_validStep hu hd
  have hvN : move W u d < W * H := move_lt_of_validStep hu hd
  refine ⟨⟨?_, ?_, ?_, ?_, ?_, ?_⟩, ?_⟩
  · exact relax_achievable isLand sourceStrength ps W H st u cu (move W u d) d
      hps.costu hd rfl hps.ach
  · exact relax_keys isLand ps W H st u cu (move W u d) d hvN hps.keys
  · exact relax_debtx isLand ps W H st u cu (move W u d) d hvu hps.debtx
  · exact relax_ocean isLand sourceStrength ps W H st u cu (move W u d) d hps.ocean
  · rw [relax_cost_ne isLand ps st u cu (move W u d) d u (Ne.symm hvu)]
    exact hps.costu
  · intro w
    exact le_trans (relax_cost_mono isLand ps st u cu (move W u d) d w) (hps.mono w)
  · exact relax_cost_le isLand ps st u cu (move W u d) d

/-- A guarded relaxation stage: bundle preservation, a cost bound on the
target when the guard holds, and stage monotonicity. -/
theorem procState_stage (st0 : DijkstraState) (u : ℕ) (cu : ℝ) (st : DijkstraState)
    (hu : u < W * H) (d : Dir4) (g : Prop) [Decidable g]
    (hg : g ↔ validStep W H u d) (v : ℕ) (hv : v = move W u d)
    (hps : ProcState isLand sourceStrength ps W H st0 u cu st) :
    ProcState isLand sourceStrength ps W H st0 u cu
        (if g then relax isLand ps st u cu v d else st) ∧
      (validStep W H u d →
        (if g then relax isLand ps st u cu v d else st).cost v ≤
          ((cu + stepCostTo isLand ps u v d : ℝ) : WithTop ℝ)) ∧
      (∀ w, (if g then relax isLand ps st u cu v d else st).cost w ≤ st.cost w) := by
  by_cases hgc : g
  · rw [if_pos hgc]
    subst hv
    obtain ⟨hps', hb⟩ := procState_relax isLand sourceStrength ps W H st0 u cu st hu d
      (hg.mp hgc) hps
    exact ⟨hps', fun _ => hb, relax_cost_mono isLand ps st u cu (move W u d) d⟩
  · rw [if_neg hgc]
    exact ⟨hps, fun hd => absurd (hg.mpr hd) hgc, fun w => le_refl _⟩

/-- Processing one non-stale popped node restores the full invariant:
afterwards the node itself carries no outstanding relaxation debt. -/
theorem processNode_inv (st : DijkstraState) (u : ℕ) (cu : ℝ) (hu : u < W * H)
    (hps : ProcState isLand sourceStrength ps W H st u cu st) :
    Inv isLand sourceStrength ps W H (processNode isLand ps W H st u cu) ∧
      (∀ w, (processNode isLand ps W H st u cu).cost w ≤ st.cost w) ∧
      (processNode isLand ps W H st u cu).cost u = (cu : WithTop ℝ) ∧
      (∀ d : Dir4, validStep W H u d →
        (processNode isLand ps W H st u cu).cost (move W u d) ≤
          ((cu : WithTop ℝ) + (stepCostTo isLand ps u (move W u d) d : WithTop ℝ))) := by
  unfold processNode
  dsimp only
  obtain ⟨hps1, hb1, hm1⟩ := procState_stage isLand sourceStrength ps W H st u cu st hu
    Dir4.east (u % W + 1 < W) Iff.rfl (u + 1) rfl hps
  set st1 := if u % W + 1 < W then relax isLand ps st u cu (u + 1) Dir4.east else st with hst1
  obtain ⟨hps2, hb2, hm2⟩ := procState_stage isLand sourceStrength ps W H st u cu st1 hu
    Dir4.west (1 ≤ u % W) Iff.rfl (u - 1) rfl hps1
  set st2 := if 1 ≤ u % W then relax isLand ps st1 u cu (u - 1) Dir4.west else st1 with hst2
  obtain ⟨hps3, hb3, hm3⟩ := procState_stage isLand sourceStrength ps W H st u cu st2 hu
    Dir4.south (u / W + 1 < H) Iff.rfl (u + W) rfl hps2
  set st3 := if u / W + 1 < H then relax isLand ps st2 u cu (u + W) Dir4.south else st2
    with hst3
  obtain ⟨hps4, hb4, hm4⟩ := procState_stage isLand sourceStrength ps W H st u cu st3 hu
    Dir4.north (1 ≤ u / W) Iff.rfl (u - W) rfl hps3
  set st4 := if 1 ≤ u / W then relax isLand ps st3 u cu (u - W) Dir4.north else st3
    with hst4
  have hbound : ∀ d : Dir4, validStep W H u d →
      st4.cost (move W u d) ≤ ((cu + stepCostTo isLand ps u (move W u d) d : ℝ) : WithTop ℝ) := by
    intro d hd
    cases d with
    | east =>
      calc st4.cost (move W u Dir4.east) ≤ st3.cost (move W u Dir4.east) := hm4 _
      _ ≤ st2.cost (move W u Dir4.east) := hm3 _
      _ ≤ st1.cost (move W u Dir4.east) := hm2 _
      _ ≤ _ := hb1 hd
    | west =>
      calc st4.cost (move W u Dir4.west) ≤ st3.cost (move W u Dir4.west) := hm4 _
      _ ≤ st2.cost (move W u Dir4.west) := hm3 _
      _ ≤ _ := hb2 hd
    | south =>
      calc st4.cost (move W u Dir4.south) ≤ st3.cost (move W u Dir4.south) := hm4 _
      _ ≤ _ := hb3 hd
    | north => exact hb4 hd
  refine ⟨⟨hps4.ach, hps4.keys, ?_, hps4.ocean⟩, ?_, hps4.costu, ?_⟩
  · intro w hwN hwne
    rcases hps4.debtx w hwN hwne with hwu | h
    · subst hwu
      refine Or.inr fun d hd => ?_
      rw [hps4.costu, ← WithTop.coe_add]
      exact hbound d hd
    · exact h
  · intro w
    exact le_trans (hm4 w) (le_trans (hm3 w) (le_trans (hm2 w) (le_trans (hm1 w)
      (le_refl _))))
  · intro d hd
    rw [← WithTop.coe_add]
    exact hbound d hd

/-- The loop preserves the invariant and never increases any cost. -/
theorem runLoop_inv (fuel : ℕ) (st : DijkstraState)
    (hInv : Inv isLand sourceStrength ps W H st) :
    Inv isLand sourceStrength ps W H (runLoop isLand ps W H fuel st) ∧
      ∀ w, (runLoop isLand ps W H fuel st).cost w ≤ st.cost w := by
  induction fuel generalizing st with
  | zero => exact ⟨hInv, fun w => le_refl _⟩
  | succ fuel ih =>
    rw [runLoop]
    cases hpop : heapPop st.heap with
    | none => exact ⟨hInv, fun w => le_refl _⟩
    | some pr =>
      obtain ⟨⟨u, cu⟩, h'⟩ := pr
      have hperm := heapPop_perm hpop
      have hmem : (u, cu) ∈ st.heap := hperm.mem_iff.mpr (List.mem_cons_self _ _)
      have hsub : ∀ e ∈ h', e ∈ st.heap := fun e he =>
        hperm.mem_iff.mpr (List.mem_cons_of_mem _ he)
      obtain ⟨huN, hule⟩ := hInv.keys (u, cu) hmem
      dsimp only
      by_cases hstale : ({ st with heap := h' } : DijkstraState).cost u < (cu : WithTop ℝ)
      · rw [if_pos hstale]
        refine ih { st with heap := h' } ⟨hInv.achievable, ?_, ?_, hInv.ocean⟩
        · intro e he
          exact hInv.keys e (hsub e he)
        · intro w hwN hwne
          rcases hInv.debt w hwN hwne with ⟨k, hk, hkeq⟩ | h
          · refine Or.inl ⟨k, ?_, hkeq⟩
            have hne : (w, k) ≠ (u, cu) := by
              intro hc
              obtain ⟨hw, hk'⟩ := Prod.mk.injEq _ _ _ _ ▸ hc
              rw [hw, hk'] at hkeq
              rw [hkeq] at hstale
              exact lt_irrefl _ hstale
            rcases List.mem_cons.mp (hperm.mem_iff.mp hk) with hc | hc
            · exact absurd hc hne
            · exact hc
          · exact Or.inr h
      · rw [if_neg hstale]
        have hcu : ({ st with heap := h' } : DijkstraState).cost u = (cu : WithTop ℝ) :=
          le_antisymm hule (le_of_not_lt hstale)
        have hps : ProcState isLand sourceStrength ps W H { st with heap := h' } u cu
            { st with heap := h' } := by
          refine ⟨hInv.achievable, ?_, ?_, hInv.ocean, hcu, fun w => le_refl _⟩
          · intro e he
            exact hInv.keys e (hsub e he)
          · intro w hwN hwne
            rcases hInv.debt w hwN hwne with ⟨k, hk, hkeq⟩ | h
            · by_cases hne : (w, k) = (u, cu)
              · obtain ⟨hw, _⟩ := Prod.mk.injEq _ _ _ _ ▸ hne
                exact Or.inl hw
              · refine Or.inr (Or.inl ⟨k, ?_, hkeq⟩)
                rcases List.mem_cons.mp (hperm.mem_iff.mp hk) with hc | hc
                · exact absurd hc hne
                · exact hc
            · exact Or.inr (Or.inr h)
        obtain ⟨hInv4, hmono4, _, _⟩ :=
          processNode_inv isLand sourceStrength ps W H { st with heap := h' } u cu huN hps
        obtain ⟨hfin, hmfin⟩ := ih _ hInv4
        exact ⟨hfin, fun w => le_trans (hmfin w) (hmono4 w)⟩

/-- With an empty heap, stability plus the ocean bound force every cost to
be at most every valid path cost. -/
theorem final_le_walk (st : DijkstraState)
    (hInv : Inv isLand sourceStrength ps W H st) (hheap : st.heap = []) :
    ∀ (o : ℕ) (ds : List Dir4) (p : ℕ), ValidWalk isLand W H o ds p →
      st.cost p ≤ ((walkCost isLand sourceStrength ps W o ds : ℝ) : WithTop ℝ) := by
  intro o ds
  induction ds using List.reverseRecOn with
  | nil =>
    intro p hw
    obtain ⟨hoN, hooc, _, hend⟩ := hw
    have : p = o := by rw [← hend]; rfl
    subst this
    have := hInv.ocean p hoN hooc
    calc st.cost p ≤ ((seedCost sourceStrength p : ℝ) : WithTop ℝ) := this
    _ = ((walkCost isLand sourceStrength ps W p [] : ℝ) : WithTop ℝ) := by
      rw [WithTop.coe_eq_coe]
      unfold walkCost stepsCost
      ring
  | append_singleton ds d ih =>
    intro p hw
    obtain ⟨hoN, hooc, hsteps, hend⟩ := hw
    rw [validSteps_append] at hsteps
    obtain ⟨hds, hd⟩ := hsteps
    set q := walkEnd W o ds with hq
    have hwq : ValidWalk isLand W H o ds q := ⟨hoN, hooc, hds, rfl⟩
    have hqle := ih q hwq
    have hqN : q < W * H := walkEnd_lt ds o hoN hds
    have hqne : st.cost q ≠ ⊤ := by
      intro hc
      rw [hc] at hqle
      exact (lt_irrefl _ (lt_of_le_of_lt hqle (WithTop.coe_lt_top _))).elim
    have hdebt := hInv.debt q hqN hqne
    rcases hdebt with ⟨k, hk, _⟩ | hrel
    · rw [hheap] at hk
      simp at hk
    · have hpmove : p = move W q d := by rw [← hend, walkEnd_append]
      have hstep := hrel d hd
      rw [← hpmove] at hstep
      calc st.cost p ≤ st.cost q + (stepCostTo isLand ps q (move W q d) d : WithTop ℝ) := by
            rw [hpmove] at hstep ⊢
            exact hrel d hd
      _ ≤ ((walkCost isLand sourceStrength ps W o ds : ℝ) : WithTop ℝ) +
            (stepCostTo isLand ps q (move W q d) d : WithTop ℝ) :=
          add_le_add_right hqle _
      _ = ((walkCost isLand sourceStrength ps W o (ds ++ [d]) : ℝ) : WithTop ℝ) := by
          rw [← WithTop.coe_add, WithTop.coe_eq_coe]
          unfold walkCost
          rw [stepsCost_append]
          ring

/-- Ocean cells still carrying their seeded cost, predecessor and source. -/
def OceanIntact (st : DijkstraState) : Prop :=
  ∀ p : ℕ, p < W * H → isLand.getD p false = false →
    st.cost p = ((seedCost sourceStrength p : ℝ) : WithTop ℝ) ∧
      st.prev p = -1 ∧ st.src p = (p : ℤ)

/-- When every ocean cell has the same seed cost `c`, every achieved cost
is at least `c`. -/
theorem achieved_ge_of_same_seed (c : ℝ) (st : DijkstraState)
    (hsame : ∀ p : ℕ, p < W * H → isLand.getD p false = false →
      seedCost sourceStrength p = c)
    (hA : Achievable isLand sourceStrength ps W H st)
    (w : ℕ) (cw : ℝ) (hcw : st.cost w = ((cw : ℝ) : WithTop ℝ)) : c ≤ cw := by
  obtain ⟨o, ds, hwk, hceq⟩ := hA w (by rw [hcw]; exact WithTop.coe_ne_top)
  obtain ⟨hoN, hooc, _, _⟩ := hwk
  rw [hcw] at hceq
  have heq : cw = walkCost isLand sourceStrength ps W o ds := WithTop.coe_eq_coe.mp hceq
  have hsteps := stepsCost_nonneg isLand ps W ds o
  have hseed := hsame o hoN hooc
  unfold walkCost at heq
  rw [hseed] at heq
  linarith

/-- Relaxation keeps ocean cells intact when every ocean seed equals `c`
and the popped key is at least `c`. -/
theorem relax_oceanIntact (c : ℝ) (st : DijkstraState) (u : ℕ) (cu : ℝ) (v : ℕ) (d : Dir4)
    (hsame : ∀ p : ℕ, p < W * H → isLand.getD p false = false →
      seedCost sourceStrength p = c)
    (hcge : c ≤ cu)
    (hI : OceanIntact isLand sourceStrength W H st) :
    OceanIntact isLand sourceStrength W H (relax isLand ps st u cu v d) := by
  intro p hp hpo
  by_cases hupd : ((cu + stepCostTo isLand ps u v d : ℝ) : WithTop ℝ) < st.cost v
  · by_cases hpv : p = v
    · subst hpv
      exfalso
      obtain ⟨hcost, _, _⟩ := hI p hp hpo
      rw [hcost, WithTop.coe_lt_coe, hsame p hp hpo] at hupd
      have := stepCostTo_nonneg isLand ps u p d
      linarith
    · unfold relax at *
      dsimp only at *
      rw [if_pos hupd]
      dsimp only
      rw [Function.update_noteq hpv, Function.update_noteq hpv, Function.update_noteq hpv]
      exact hI p hp hpo
  · rw [relax_eq_of_not_lt isLand ps st u cu v d hupd]
    exact hI p hp hpo

/-- Processing a popped node keeps ocean cells intact. -/
theorem processNode_oceanIntact (c : ℝ) (st : DijkstraState) (u : ℕ) (cu : ℝ)
    (hsame : ∀ p : ℕ, p < W * H → isLand.getD p false = false →
      seedCost sourceStrength p = c)
    (hcge : c ≤ cu)
    (hI : OceanIntact isLand sourceStrength W H st) :
    OceanIntact isLand sourceStrength W H (processNode isLand ps W H st u cu) := by
  unfold processNode
  dsimp only
  have s1 := fun st h => relax_oceanIntact isLand sourceStrength ps W H c st u cu (u + 1)
    Dir4.east hsame hcge h
  have s2 := fun st h => relax_oceanIntact isLand sourceStrength ps W H c st u cu (u - 1)
    Dir4.west hsame hcge h
  have s3 := fun st h => relax_oceanIntact isLand sourceStrength ps W H c st u cu (u + W)
    Dir4.south hsame hcge h
  have s4 := fun st h => relax_oceanIntact isLand sourceStrength ps W H c st u cu (u - W)
    Dir4.north hsame hcge h
  split
  all_goals split
  all_goals split
  all_goals split
  all_goals
    first
      | exact s4 _ (s3 _ (s2 _ (s1 _ hI)))
      | exact s4 _ (s3 _ (s2 _ hI))
      | exact s4 _ (s3 _ (s1 _ hI))
      | exact s4 _ (s3 _ hI)
      | exact s4 _ (s2 _ (s1 _ hI))
      | exact s4 _ (s2 _ hI)
      | exact s4 _ (s1 _ hI)
      | exact s4 _ hI
      | exact s3 _ (s2 _ (s1 _ hI))
      | exact s3 _ (s2 _ hI)
      | exact s3 _ (s1 _ hI)
      | exact s3 _ hI
      | exact s2 _ (s1 _ hI)
      | exact s2 _ hI
      | exact s1 _ hI
      | exact hI

/-- The loop keeps ocean cells intact when every ocean seed equals `c`. -/
theorem runLoop_oceanIntact (c : ℝ)
    (hsame : ∀ p : ℕ, p < W * H → isLand.getD p false = false →
      seedCost sourceStrength p = c)
    (fuel : ℕ) (st : DijkstraState)
    (hInv : Inv isLand sourceStrength ps W H st)
    (hI : OceanIntact isLand sourceStrength W H st) :
    OceanIntact isLand sourceStrength W H (runLoop isLand ps W H fuel st) := by
  induction fuel generalizing st with
  | zero => exact hI
  | succ fuel ih =>
    rw [runLoop]
    cases hpop : heapPop st.heap with
    | none => exact hI
    | some pr =>
      obtain ⟨⟨u, cu⟩, h'⟩ := pr
      have hperm := heapPop_perm hpop
      have hmem : (u, cu) ∈ st.heap := hperm.mem_iff.mpr (List.mem_cons_self _ _)
      have hsub : ∀ e ∈ h', e ∈ st.heap := fun e he =>
        hperm.mem_iff.mpr (List.mem_cons_of_mem _ he)
      obtain ⟨huN, hule⟩ := hInv.keys (u, cu) hmem
      dsimp only
      by_cases hstale : ({ st with heap := h' } : DijkstraState).cost u < (cu : WithTop ℝ)
      · rw [if_pos hstale]
        have hInv' : Inv isLand sourceStrength ps W H { st with heap := h' } := by
          refine ⟨hInv.achievable, fun e he => hInv.keys e (hsub e he), ?_, hInv.ocean⟩
          intro w hwN hwne
          rcases hInv.debt w hwN hwne with ⟨k, hk, hkeq⟩ | h
          · refine Or.inl ⟨k, ?_, hkeq⟩
            have hne : (w, k) ≠ (u, cu) := by
              intro hc
              obtain ⟨hw, hk'⟩ := Prod.mk.injEq _ _ _ _ ▸ hc
              rw [hw, hk'] at hkeq
              rw [hkeq] at hstale
              exact lt_irrefl _ hstale
            rcases List.mem_cons.mp (hperm.mem_iff.mp hk) with hc | hc
            · exact absurd hc hne
            · exact hc
          · exact Or.inr h
        exact ih { st with heap := h' } hInv' hI
      · rw [if_neg hstale]
        have hcu : ({ st with heap := h' } : DijkstraState).cost u = (cu : WithTop ℝ) :=
          le_antisymm hule (le_of_not_lt hstale)
        have hps : ProcState isLand sourceStrength ps W H { st with heap := h' } u cu
            { st with heap := h' } := by
          refine ⟨hInv.achievable, fun e he => hInv.keys e (hsub e he), ?_, hInv.ocean,
            hcu, fun w => le_refl _⟩
          intro w hwN hwne
          rcases hInv.debt w hwN hwne with ⟨k, hk, hkeq⟩ | h
          · by_cases hne : (w, k) = (u, cu)
            · obtain ⟨hw, _⟩ := Prod.mk.injEq _ _ _ _ ▸ hne
              exact Or.inl hw
            · refine Or.inr (Or.inl ⟨k, ?_, hkeq⟩)
              rcases List.mem_cons.mp (hperm.mem_iff.mp hk) with hc | hc
              · exact absurd hc hne
              · exact hc
          · exact Or.inr (Or.inr h)
        obtain ⟨hInv4, _, _, _⟩ :=
          processNode_inv isLand sourceStrength ps W H { st with heap := h' } u cu huN hps
        have hcge : c ≤ cu := achieved_ge_of_same_seed isLand sourceStrength ps W H c
          { st with heap := h' } hsame hInv.achievable u cu hcu
        exact ih _ hInv4
          (processNode_oceanIntact isLand sourceStrength ps W H c
            { st with heap := h' } u cu hsame hcge hI)

/-- The invariant holds at the end of any run. -/
theorem dijkstraFinal_inv (fuel : ℕ) :
    Inv isLand sourceStrength ps W H
        (dijkstraFinal isLand sourceStrength W H ps fuel) ∧
      ∀ w, (dijkstraFinal isLand sourceStrength W H ps fuel).cost w ≤
        (seedState isLand sourceStrength (W * H)).cost w := by
  exact runLoop_inv isLand sourceStrength ps W H fuel _
    (seedState_inv isLand sourceStrength ps W H)

/-- Main correctness of the engine's cost array, for terminating runs: a
reachable cell's final cost is the minimum path cost over all valid paths
from ocean cells, and an unreachable cell's final cost is `⊤`. -/
theorem dijkstraFinal_spec (fuel : ℕ)
    (hterm : (dijkstraFinal isLand sourceStrength W H ps fuel).heap = []) (p : ℕ) :
    (¬ Reachable isLand W H p →
      (dijkstraFinal isLand sourceStrength W H ps fuel).cost p = ⊤) ∧
    (Reachable isLand W H p →
      (∃ o ds, ValidWalk isLand W H o ds p ∧
        (dijkstraFinal isLand sourceStrength W H ps fuel).cost p =
          ((walkCost isLand sourceStrength ps W o ds : ℝ) : WithTop ℝ)) ∧
      (∀ o ds, ValidWalk isLand W H o ds p →
        (dijkstraFinal isLand sourceStrength W H ps fuel).cost p ≤
          ((walkCost isLand sourceStrength ps W o ds : ℝ) : WithTop ℝ))) := by
  obtain ⟨hInv, _⟩ := dijkstraFinal_inv isLand sourceStrength ps W H fuel
  constructor
  · intro hnr
    by_contra hc
    obtain ⟨o, ds, hw, _⟩ := hInv.achievable p hc
    exact hnr ⟨o, ds, hw⟩
  · intro hr
    constructor
    · obtain ⟨o, ds, hw⟩ := hr
      have hle := final_le_walk isLand sourceStrength ps W H _ hInv hterm o ds p hw
      have hne : (dijkstraFinal isLand sourceStrength W H ps fuel).cost p ≠ ⊤ := by
        intro hc
        rw [hc] at hle
        exact (lt_irrefl _ (lt_of_le_of_lt hle (WithTop.coe_lt_top _))).elim
      exact hInv.achievable p hne
    · intro o ds hw
      exact final_le_walk isLand sourceStrength ps W H _ hInv hterm o ds p hw

end Invariant

/-- Indexing a mapped range list. -/
theorem getD_map_range {α : Type} (N : ℕ) (f : ℕ → α) (p : ℕ) (hp : p < N) (d : α) :
    ((List.range N).map f).getD p d = f p := by
  rw [List.getD_eq_getElem _ _ (by simpa using hp)]
  simp

/-- The loop does nothing on an empty heap. -/
theorem runLoop_empty_heap (isLand : List Bool) (ps : MoistureDijkstraParams)
    (W H fuel : ℕ) (st : DijkstraState) (h : st.heap = []) :
    runLoop isLand ps W H fuel st = st := by
  cases fuel with
  | zero => rfl
  | succ fuel =>
    rw [runLoop, h]
    rfl

/-- With no ocean cell, seeding does nothing. -/
theorem seedState_all_land (isLand : List Bool) (sourceStrength : List ℝ) (N : ℕ)
    (hall : ∀ p < N, isLand.getD p false = true) :
    seedState isLand sourceStrength N = initState := by
  rw [seedState_eq_foldl]
  have haux : ∀ (l : List ℕ), (∀ p ∈ l, isLand.getD p false = true) →
      ∀ st : DijkstraState, l.foldl (seedIter isLand sourceStrength) st = st := by
    intro l
    induction l with
    | nil => intro _ st; rfl
    | cons a l ih =>
      intro hl st
      rw [List.foldl_cons]
      have hstep : seedIter isLand sourceStrength st a = st := by
        unfold seedIter
        rw [if_pos (hl a (List.mem_cons_self a l))]
      rw [hstep]
      exact ih (fun p hp => hl p (List.mem_cons_of_mem a hp)) st
  exact haux (List.range N) (fun p hp => hall p (List.mem_range.mp hp)) initState

/-- Moisture of an infinite cost. -/
theorem moistureOf_top : moistureOf ⊤ = 0 := rfl

/-- Moisture of a finite cost. -/
theorem moistureOf_coe (c : ℝ) : moistureOf ((c : ℝ) : WithTop ℝ) = Real.exp (-c) := rfl

/-- C1.  For a terminating run on well-formed inputs, the engine returns a
cost array in which every cell reachable by a 4-connected directed path
from some ocean cell carries exactly the minimum, over ocean sources `o`
and paths, of the seed cost `-ln(clamp(sourceStrength[o], 1e-6, 1))` plus
the path's `stepCostTo` edge costs, and every unreachable cell carries
`+Infinity`. -/
theorem dijkstra_cost_is_min_path_cost (isLand : List Bool) (sourceStrength : List ℝ)
    (W H : ℕ) (ps : MoistureDijkstraParams) (fuel : ℕ)
    (hlen1 : isLand.length = W * H) (hlen2 : sourceStrength.length = W * H)
    (hterm : (dijkstraFinal isLand sourceStrength W H ps fuel).heap = []) :
    ∃ res : MoistureDijkstraResult,
      computeMoistureAvailabilityDijkstra isLand sourceStrength W H ps fuel =
        Except.ok res ∧
      ∀ p : ℕ, p < W * H →
        (Reachable isLand W H p →
          (∃ o ds, ValidWalk isLand W H o ds p ∧
            res.cost.getD p ⊤ =
              ((walkCost isLand sourceStrength ps W o ds : ℝ) : WithTop ℝ)) ∧
          (∀ o ds, ValidWalk isLand W H o ds p →
            res.cost.getD p ⊤ ≤
              ((walkCost isLand sourceStrength ps W o ds : ℝ) : WithTop ℝ))) ∧
        (¬ Reachable isLand W H p → res.cost.getD p ⊤ = ⊤) := by
  refine ⟨⟨(List.range (W * H)).map
      (fun p => moistureOf ((dijkstraFinal isLand sourceStrength W H ps fuel).cost p)),
      (List.range (W * H)).map (dijkstraFinal isLand sourceStrength W H ps fuel).src,
      (List.range (W * H)).map (dijkstraFinal isLand sourceStrength W H ps fuel).prev,
      (List.range (W * H)).map (dijkstraFinal isLand sourceStrength W H ps fuel).cost⟩,
      ?_, ?_⟩
  · unfold computeMoistureAvailabilityDijkstra
    rw [if_neg (by rw [hlen1]; exact fun h => h rfl),
      if_neg (by rw [hlen2]; exact fun h => h rfl)]
  · intro p hp
    have hspec := dijkstraFinal_spec isLand sourceStrength ps W H fuel hterm p
    have hidx : ((List.range (W * H)).map
        (dijkstraFinal isLand sourceStrength W H ps fuel).cost).getD p ⊤ =
        (dijkstraFinal isLand sourceStrength W H ps fuel).cost p :=
      getD_map_range (W * H) _ p hp ⊤
    constructor
    · intro hr
      obtain ⟨hex, hmin⟩ := hspec.2 hr
      constructor
      · obtain ⟨o, ds, hw, hc⟩ := hex
        exact ⟨o, ds, hw, by rw [hidx]; exact hc⟩
      · intro o ds hw
        rw [hidx]
        exact hmin o ds hw
    · intro hnr
      rw [hidx]
      exact hspec.1 hnr

/-- C4.  On well-formed inputs the engine returns normally; with zero ocean
cells every cell ends with cost `+Infinity`, moisture `0`, predecessor `-1`
and source `-1`; and for every cell `moisture = exp(-cost) ∈ (0,1]` when
the cost is finite and `0` when it is infinite. -/
theorem dijkstra_degenerate_and_range (isLand : List Bool) (sourceStrength : List ℝ)
    (W H : ℕ) (ps : MoistureDijkstraParams) (fuel : ℕ)
    (hlen1 : isLand.length = W * H) (hlen2 : sourceStrength.length = W * H) :
    ∃ res : MoistureDijkstraResult,
      computeMoistureAvailabilityDijkstra isLand sourceStrength W H ps fuel =
        Except.ok res ∧
      (∀ p : ℕ, p < W * H →
        (res.cost.getD p ⊤ = ⊤ → res.moisture.getD p 0 = 0) ∧
        (res.cost.getD p ⊤ ≠ ⊤ → ∃ c : ℝ, res.cost.getD p ⊤ = ((c : ℝ) : WithTop ℝ) ∧
          0 ≤ c ∧ res.moisture.getD p 0 = Real.exp (-c) ∧
          0 < res.moisture.getD p 0 ∧ res.moisture.getD p 0 ≤ 1)) ∧
      ((∀ p : ℕ, p < W * H → isLand.getD p false = true) →
        ∀ p : ℕ, p < W * H → res.cost.getD p ⊤ = ⊤ ∧ res.moisture.getD p 0 = 0 ∧
          res.prev.getD p 0 = -1 ∧ res.src.getD p 0 = -1) := by
  refine ⟨⟨(List.range (W * H)).map
      (fun p => moistureOf ((dijkstraFinal isLand sourceStrength W H ps fuel).cost p)),
      (List.range (W * H)).map (dijkstraFinal isLand sourceStrength W H ps fuel).src,
      (List.range (W * H)).map (dijkstraFinal isLand sourceStrength W H ps fuel).prev,
      (List.range (W * H)).map (dijkstraFinal isLand sourceStrength W H ps fuel).cost⟩,
      ?_, ?_, ?_⟩
  · unfold computeMoistureAvailabilityDijkstra
    rw [if_neg (by rw [hlen1]; exact fun h => h rfl),
      if_neg (by rw [hlen2]; exact fun h => h rfl)]
  · intro p hp
    have hidxc : ((List.range (W * H)).map
        (dijkstraFinal isLand sourceStrength W H ps fuel).cost).getD p ⊤ =
        (dijkstraFinal isLand sourceStrength W H ps fuel).cost p :=
      getD_map_range (W * H) _ p hp ⊤
    have hidxm : ((List.range (W * H)).map
        (fun q => moistureOf ((dijkstraFinal isLand sourceStrength W H ps fuel).cost q))).getD
          p 0 =
        moistureOf ((dijkstraFinal isLand sourceStrength W H ps fuel).cost p) :=
      getD_map_range (W * H) _ p hp 0
    constructor
    · intro hc
      rw [hidxc] at hc
      rw [hidxm, hc]
      exact moistureOf_top
    · intro hc
      rw [hidxc] at hc
      obtain ⟨hInv, _⟩ := dijkstraFinal_inv isLand sourceStrength ps W H fuel
      obtain ⟨o, ds, _, hceq⟩ := hInv.achievable p hc
      refine ⟨walkCost isLand sourceStrength ps W o ds, by rw [hidxc]; exact hceq,
        walkCost_nonneg isLand sourceStrength ps W o ds, ?_, ?_, ?_⟩
      · rw [hidxm, hceq]
        exact moistureOf_coe _
      · rw [hidxm, hceq, moistureOf_coe]
        exact Real.exp_pos _
      · rw [hidxm, hceq, moistureOf_coe]
        rw [Real.exp_le_one_iff]
        have := walkCost_nonneg isLand sourceStrength ps W o ds
        linarith
  · intro hall p hp
    have hfin : dijkstraFinal isLand sourceStrength W H ps fuel = initState := by
      unfold dijkstraFinal
      rw [seedState_all_land isLand sourceStrength (W * H) hall]
      exact runLoop_empty_heap isLand ps W H fuel initState rfl
    rw [getD_map_range (W * H) _ p hp ⊤, getD_map_range (W * H) _ p hp 0,
      getD_map_range (W * H) _ p hp 0, getD_map_range (W * H) _ p hp 0, hfin]
    exact ⟨rfl, rfl, rfl, rfl⟩

/-- C3 (amended).  Every ocean cell is seeded with exactly its seed cost,
predecessor `-1` and itself as source, and its final cost never exceeds
its seed cost; when all ocean cells carry the same source strength the
original claim holds of the result: final cost equal to the seed cost,
predecessor `-1`, source itself.  (In general an ocean cell can be relaxed
from a neighbour whose source offers a strictly cheaper path.) -/
theorem dijkstra_ocean_seed_amended (isLand : List Bool) (sourceStrength : List ℝ)
    (W H : ℕ) (ps : MoistureDijkstraParams) (fuel : ℕ)
    (hlen1 : isLand.length = W * H) (hlen2 : sourceStrength.length = W * H) :
    ∃ res : MoistureDijkstraResult,
      computeMoistureAvailabilityDijkstra isLand sourceStrength W H ps fuel =
        Except.ok res ∧
      ∀ p : ℕ, p < W * H → isLand.getD p false = false →
        ((seedState isLand sourceStrength (W * H)).cost p =
            ((seedCost sourceStrength p : ℝ) : WithTop ℝ) ∧
          (seedState isLand sourceStrength (W * H)).prev p = -1 ∧
          (seedState isLand sourceStrength (W * H)).src p = (p : ℤ)) ∧
        res.cost.getD p ⊤ ≤ ((seedCost sourceStrength p : ℝ) : WithTop ℝ) ∧
        ((∀ q : ℕ, q < W * H → isLand.getD q false = false →
            sourceStrength.getD q 0 = sourceStrength.getD p 0) →
          res.cost.getD p ⊤ = ((seedCost sourceStrength p : ℝ) : WithTop ℝ) ∧
          res.prev.getD p 0 = -1 ∧ res.src.getD p 0 = (p : ℤ)) := by
  refine ⟨⟨(List.range (W * H)).map
      (fun p => moistureOf ((dijkstraFinal isLand sourceStrength W H ps fuel).cost p)),
      (List.range (W * H)).map (dijkstraFinal isLand sourceStrength W H ps fuel).src,
      (List.range (W * H)).map (dijkstraFinal isLand sourceStrength W H ps fuel).prev,
      (List.range (W * H)).map (dijkstraFinal isLand sourceStrength W H ps fuel).cost⟩,
      ?_, ?_⟩
  · unfold computeMoistureAvailabilityDijkstra
    rw [if_neg (by rw [hlen1]; exact fun h => h rfl),
      if_neg (by rw [hlen2]; exact fun h => h rfl)]
  · intro p hp hpo
    refine ⟨⟨?_, ?_, ?_⟩, ?_, ?_⟩
    · rw [seedState_cost, if_pos ⟨hp, hpo⟩]
    · rw [seedState_prev]
    · rw [seedState_src, if_pos ⟨hp, hpo⟩]
    · rw [getD_map_range (W * H) _ p hp ⊤]
      have hmono := (dijkstraFinal_inv isLand sourceStrength ps W H fuel).2 p
      rw [seedState_cost, if_pos ⟨hp, hpo⟩] at hmono
      exact hmono
    · intro hsame
      have hsameSeed : ∀ q : ℕ, q < W * H → isLand.getD q false = false →
          seedCost sourceStrength q = seedCost sourceStrength p := by
        intro q hq hqo
        unfold seedCost
        rw [hsame q hq hqo]
      have hIntact0 : OceanIntact isLand sourceStrength W H
          (seedState isLand sourceStrength (W * H)) := by
        intro q hq hqo
        refine ⟨?_, ?_, ?_⟩
        · rw [seedState_cost, if_pos ⟨hq, hqo⟩]
        · rw [seedState_prev]
        · rw [seedState_src, if_pos ⟨hq, hqo⟩]
      have hIntact := runLoop_oceanIntact isLand sourceStrength ps W H
        (seedCost sourceStrength p) hsameSeed fuel _
        (seedState_inv isLand sourceStrength ps W H) hIntact0
      obtain ⟨hcost, hprev, hsrc⟩ := hIntact p hp hpo
      refine ⟨?_, ?_, ?_⟩
      · rw [getD_map_range (W * H) _ p hp ⊤]
        exact hcost
      · rw [getD_map_range (W * H) _ p hp 0]
        exact hprev
      · rw [getD_map_range (W * H) _ p hp 0]
        exact hsrc

/-- Pushing onto an empty heap. -/
theorem heapPush_nil (n : ℕ) (k : ℝ) : heapPush [] n k = [(n, k)] := by
  unfold heapPush
  simp [siftUp]

/-- Pushing a no-smaller key onto a singleton heap appends it. -/
theorem heapPush_singleton (e1 : HeapEntry) (n : ℕ) (k : ℝ) (h : e1.2 ≤ k) :
    heapPush [e1] n k = [e1, (n, k)] := by
  unfold heapPush
  rw [show ([e1] ++ [(n, k)] : List HeapEntry) = [e1, (n, k)] from rfl,
    show ([e1] : List HeapEntry).length = 0 + 1 from rfl]
  rw [siftUp]
  rw [if_pos (by simpa using h)]

/-- Popping a two-entry heap returns the root and keeps the other entry. -/
theorem heapPop_pair (e1 e2 : HeapEntry) : heapPop [e1, e2] = some (e1, [e2]) := by
  have hsd : siftDown [e2] 0 = [e2] := by
    rw [siftDown]
    rw [dif_neg (by norm_num)]
  unfold heapPop
  simp [hsd]

/-- C3 is violated by the code: on a 2×1 all-ocean raster whose second
cell has the weaker source strength `1/2`, the second ocean cell is
relaxed from the first, so its returned path cost is `0.001`, strictly
below (hence different from) its own seed cost `-ln(1/2)`. -/
theorem dijkstra_ocean_cell_relaxed_cex :
    ([false, false] : List Bool).getD 1 false = false ∧
    Except.map (fun r : MoistureDijkstraResult => r.cost.getD 1 ⊤)
        (computeMoistureAvailabilityDijkstra [false, false] [(1 : ℝ), 1 / 2] 2 1 {} 4) ≠
      Except.ok ((seedCost [(1 : ℝ), 1 / 2] 1 : ℝ) : WithTop ℝ) := by
  have hc0 : seedCost [(1 : ℝ), 1 / 2] 0 = 0 := by
    unfold seedCost clampSourceStrength dijkstraEps
    rw [show ([(1 : ℝ), 1 / 2].getD 0 0) = 1 from rfl]
    rw [if_neg (by norm_num), if_pos (by norm_num), Real.log_one]
    ring
  have hc1 : seedCost [(1 : ℝ), 1 / 2] 1 = Real.log 2 := by
    unfold seedCost clampSourceStrength dijkstraEps
    rw [show ([(1 : ℝ), 1 / 2].getD 1 0) = 1 / 2 from rfl]
    rw [if_neg (by norm_num), if_neg (by norm_num)]
    rw [show (1 / 2 : ℝ) = 2⁻¹ by norm_num, Real.log_inv]
    ring
  have hlog2 : (0.6931471803 : ℝ) < Real.log 2 := Real.log_two_gt_d9
  have hstep : ∀ (u v : ℕ) (d : Dir4),
      stepCostTo [false, false] ({} : MoistureDijkstraParams) u v d = 0.001 := by
    intro u v d
    have hoc : ([false, false] : List Bool).getD v false = false := by
      match v with
      | 0 => rfl
      | 1 => rfl
      | n + 2 => rfl
    unfold stepCostTo oceanStepCost
    dsimp only
    simp only [hoc, if_true]
    rw [if_neg (by norm_num)]
  have hheap : (seedState [false, false] [(1 : ℝ), 1 / 2] (2 * 1)).heap =
      [(0, (0 : ℝ)), (1, Real.log 2)] := by
    rw [seedState_eq_foldl]
    rw [show List.range (2 * 1) = [0, 1] from rfl]
    rw [List.foldl_cons, List.foldl_cons, List.foldl_nil]
    unfold seedIter
    rw [if_neg (by decide)]
    dsimp only
    rw [if_neg (by decide)]
    dsimp only
    rw [hc0, hc1]
    show heapPush (heapPush ([] : List HeapEntry) 0 0) 1 (Real.log 2) = _
    rw [heapPush_nil, heapPush_singleton (0, (0 : ℝ)) 1 (Real.log 2)
      (by simpa using Real.log_nonneg one_le_two)]
  have hcost0 : (seedState [false, false] [(1 : ℝ), 1 / 2] (2 * 1)).cost 0 =
      ((0 : ℝ) : WithTop ℝ) := by
    rw [seedState_cost, if_pos ⟨by norm_num, rfl⟩, hc0]
  have hcost1 : (seedState [false, false] [(1 : ℝ), 1 / 2] (2 * 1)).cost 1 =
      ((Real.log 2 : ℝ) : WithTop ℝ) := by
    rw [seedState_cost, if_pos ⟨by norm_num, rfl⟩, hc1]
  set s0 := seedState [false, false] [(1 : ℝ), 1 / 2] (2 * 1) with hs0
  set st1 : DijkstraState := { s0 with heap := [(1, Real.log 2)] } with hst1
  have hcost0' : st1.cost 0 = ((0 : ℝ) : WithTop ℝ) := hcost0
  have hcost1' : st1.cost 1 = ((Real.log 2 : ℝ) : WithTop ℝ) := hcost1
  set X := processNode [false, false] ({} : MoistureDijkstraParams) 2 1 st1 0 0 with hXdef
  have hrun : runLoop [false, false] ({} : MoistureDijkstraParams) 2 1 4 s0 =
      runLoop [false, false] ({} : MoistureDijkstraParams) 2 1 3 X := by
    show runLoop [false, false] ({} : MoistureDijkstraParams) 2 1 (3 + 1) s0 = _
    rw [runLoop, hheap, heapPop_pair]
    dsimp only
    rw [if_neg (show ¬ (({ s0 with heap := [(1, Real.log 2)] } : DijkstraState).cost 0 <
        ((0 : ℝ) : WithTop ℝ)) from by
      intro hcon
      have hcon' : s0.cost 0 < ((0 : ℝ) : WithTop ℝ) := hcon
      rw [hcost0] at hcon'
      exact lt_irrefl _ hcon')]
  have hX : X = relax [false, false] ({} : MoistureDijkstraParams) st1 0 0 1 Dir4.east := by
    rw [hXdef]
    unfold processNode
    dsimp only
    rw [if_pos (by norm_num : 0 % 2 + 1 < 2), if_neg (by norm_num : ¬ 1 ≤ 0 % 2),
      if_neg (by norm_num : ¬ 0 / 2 + 1 < 1), if_neg (by norm_num : ¬ 1 ≤ 0 / 2)]
  have hupd : (((0 : ℝ) + stepCostTo [false, false] ({} : MoistureDijkstraParams) 0 1
      Dir4.east : ℝ) : WithTop ℝ) < st1.cost 1 := by
    rw [hstep, hcost1', WithTop.coe_lt_coe]
    linarith
  have hXcost : X.cost 1 = (((0 : ℝ) + 0.001 : ℝ) : WithTop ℝ) := by
    rw [hX, relax_cost_update [false, false] ({} : MoistureDijkstraParams) st1 0 0 1
      Dir4.east hupd, hstep]
  have hInv0 : Inv [false, false] [(1 : ℝ), 1 / 2] ({} : MoistureDijkstraParams) 2 1 s0 :=
    seedState_inv [false, false] [(1 : ℝ), 1 / 2] ({} : MoistureDijkstraParams) 2 1
  have hkeys1 : HeapKeysOk 2 1 st1 := by
    intro e he
    have he' : e = (1, Real.log 2) := by simpa [hst1] using he
    subst he'
    exact ⟨by norm_num, by rw [hcost1']⟩
  have hdebtx : ∀ w, w < 2 * 1 → st1.cost w ≠ ⊤ →
      w = 0 ∨ DebtAt [false, false] ({} : MoistureDijkstraParams) 2 1 st1 w := by
    intro w hw _
    interval_cases w
    · exact Or.inl rfl
    · refine Or.inr (Or.inl ⟨Real.log 2, ?_, hcost1'.symm⟩)
      simp [hst1]
  have hps : ProcState [false, false] [(1 : ℝ), 1 / 2] ({} : MoistureDijkstraParams) 2 1
      st1 0 0 st1 :=
    ⟨hInv0.achievable, hkeys1, hdebtx, hInv0.ocean, hcost0', fun w => le_refl _⟩
  obtain ⟨hInvX, _, _, _⟩ := processNode_inv [false, false] [(1 : ℝ), 1 / 2]
    ({} : MoistureDijkstraParams) 2 1 st1 0 0 (by norm_num) hps
  obtain ⟨_, hmonoF⟩ := runLoop_inv [false, false] [(1 : ℝ), 1 / 2]
    ({} : MoistureDijkstraParams) 2 1 3 X hInvX
  have hfinle : (dijkstraFinal [false, false] [(1 : ℝ), 1 / 2] 2 1 {} 4).cost 1 ≤
      (((0 : ℝ) + 0.001 : ℝ) : WithTop ℝ) := by
    unfold dijkstraFinal
    rw [← hs0, hrun, ← hXcost]
    exact hmonoF 1
  have hfinlt : (dijkstraFinal [false, false] [(1 : ℝ), 1 / 2] 2 1 {} 4).cost 1 <
      ((seedCost [(1 : ℝ), 1 / 2] 1 : ℝ) : WithTop ℝ) := by
    refine lt_of_le_of_lt hfinle ?_
    rw [hc1, WithTop.coe_lt_coe]
    linarith
  constructor
  · rfl
  · have hok : computeMoistureAvailabilityDijkstra [false, false] [(1 : ℝ), 1 / 2] 2 1 {} 4 =
        Except.ok ⟨(List.range (2 * 1)).map (fun p => moistureOf
            ((dijkstraFinal [false, false] [(1 : ℝ), 1 / 2] 2 1 {} 4).cost p)),
          (List.range (2 * 1)).map
            (dijkstraFinal [false, false] [(1 : ℝ), 1 / 2] 2 1 {} 4).src,
          (List.range (2 * 1)).map
            (dijkstraFinal [false, false] [(1 : ℝ), 1 / 2] 2 1 {} 4).prev,
          (List.range (2 * 1)).map
            (dijkstraFinal [false, false] [(1 : ℝ), 1 / 2] 2 1 {} 4).cost⟩ := by
      unfold computeMoistureAvailabilityDijkstra
      rw [if_neg (by decide), if_neg (by decide)]
    rw [hok]
    intro hcontra
    simp only [Except.map] at hcontra
    have hval := Except.ok.inj hcontra
    rw [getD_map_range (2 * 1) _ 1 (by norm_num) ⊤] at hval
    rw [hval] at hfinlt
    exact lt_irrefl _ hfinlt

/-- C10.  The engine rejects exactly the inputs whose array lengths differ
from `width*height`, and on well-formed inputs returns four arrays of
length `width*height`. -/
theorem dijkstra_length_guard (isLand : List Bool) (sourceStrength : List ℝ)
    (W H : ℕ) (ps : MoistureDijkstraParams) (fuel : ℕ) :
    ((∃ msg, computeMoistureAvailabilityDijkstra isLand sourceStrength W H ps fuel =
        Except.error msg) ↔
      (isLand.length ≠ W * H ∨ sourceStrength.length ≠ W * H)) ∧
    (isLand.length = W * H → sourceStrength.length = W * H →
      ∃ res : MoistureDijkstraResult,
        computeMoistureAvailabilityDijkstra isLand sourceStrength W H ps fuel =
          Except.ok res ∧
        res.moisture.length = W * H ∧ res.src.length = W * H ∧
        res.prev.length = W * H ∧ res.cost.length = W * H) := by
  constructor
  · constructor
    · rintro ⟨msg, hmsg⟩
      by_contra hc
      push_neg at hc
      obtain ⟨h1, h2⟩ := hc
      unfold computeMoistureAvailabilityDijkstra at hmsg
      rw [if_neg (fun h => h h1), if_neg (fun h => h h2)] at hmsg
      exact Except.noConfusion hmsg
    · intro h
      unfold computeMoistureAvailabilityDijkstra
      by_cases h1 : isLand.length ≠ W * H
      · rw [if_pos h1]
        exact ⟨_, rfl⟩
      · rw [if_neg h1]
        have h2 : sourceStrength.length ≠ W * H := by tauto
        rw [if_pos h2]
        exact ⟨_, rfl⟩
  · intro h1 h2
    unfold computeMoistureAvailabilityDijkstra
    rw [if_neg (fun h => h h1), if_neg (fun h => h h2)]
    exact ⟨_, rfl, by simp, by simp, by simp, by simp⟩

/-- The final clamp is monotone. -/
theorem finalClamp_mono {x y : ℝ} (h : x ≤ y) :
    (if x < 0 then 0 else x) ≤ (if y < 0 then 0 else y) := by
  by_cases hx : x < 0
  · by_cases hy : y < 0
    · simp [hx, hy]
    · simp only [hx, if_true, hy, if_false]
      exact le_of_not_lt hy
  · have hxy : ¬ y < 0 := fun hc => hx (lt_of_le_of_lt h hc)
    simp only [hx, if_false, hxy]
    exact h

/-- The clamped cold multiplier is at least one, hence nonnegative. -/
theorem clampAtLeast1_nonneg (x : ℝ) : 0 ≤ clampAtLeast1 x := by
  unfold clampAtLeast1
  split
  · norm_num
  · next h => linarith [le_of_not_lt h]

/-- Decreasing the e-folding distance never decreases any edge cost (with
nonnegative pixel spacing and land multiplier). -/
theorem stepCostTo_mono_L0 (isLand : List Bool) (ps : MoistureDijkstraParams)
    (L0 L0' : ℝ) (h0 : 0 < L0') (hlt : L0' < L0)
    (hpix : 0 ≤ ps.pixelKm.getD 50) (hmult : 0 ≤ ps.landBaseMultiplier.getD 1)
    (u v : ℕ) (d : Dir4) :
    stepCostTo isLand { ps with L0Km := some L0 } u v d ≤
      stepCostTo isLand { ps with L0Km := some L0' } u v d := by
  have hbase : baselineLandStep { ps with L0Km := some L0 } ≤
      baselineLandStep { ps with L0Km := some L0' } := by
    unfold baselineLandStep safeL0 resolvedL0Km resolvedPixelKm resolvedLandBaseMultiplier
    simp only [Option.getD_some]
    rw [if_pos (lt_trans h0 hlt), if_pos h0]
    exact mul_le_mul_of_nonneg_right
      (div_le_div_of_nonneg_left hpix h0 (le_of_lt hlt)) hmult
  unfold stepCostTo
  dsimp only
  apply finalClamp_mono
  by_cases hoc : isLand.getD v false = false
  · rw [if_pos hoc, if_pos hoc]
  · rw [if_neg hoc, if_neg hoc]
    have hc1 : ∀ f : ℕ → ℝ,
        baselineLandStep { ps with L0Km := some L0 } * clampAtLeast1 (f v) ≤
          baselineLandStep { ps with L0Km := some L0' } * clampAtLeast1 (f v) :=
      fun f => mul_le_mul_of_nonneg_right hbase (clampAtLeast1_nonneg (f v))
    cases ps.coldMultiplier with
    | none =>
      cases ps.elevationPenalty with
      | none =>
        cases ps.directionPenalty with
        | none => exact hbase
        | some g => exact add_le_add_right hbase _
      | some g =>
        cases ps.directionPenalty with
        | none => exact add_le_add_right hbase _
        | some g2 => exact add_le_add_right (add_le_add_right hbase _) _
    | some f =>
      cases ps.elevationPenalty with
      | none =>
        cases ps.directionPenalty with
        | none => exact hc1 f
        | some g => exact add_le_add_right (hc1 f) _
      | some g =>
        cases ps.directionPenalty with
        | none => exact add_le_add_right (hc1 f) _
        | some g2 => exact add_le_add_right (add_le_add_right (hc1 f) _) _

/-- Path step costs are monotone in the e-folding distance. -/
theorem stepsCost_mono_L0 (isLand : List Bool) (ps : MoistureDijkstraParams)
    (W : ℕ) (L0 L0' : ℝ) (h0 : 0 < L0') (hlt : L0' < L0)
    (hpix : 0 ≤ ps.pixelKm.getD 50) (hmult : 0 ≤ ps.landBaseMultiplier.getD 1) :
    ∀ (ds : List Dir4) (u : ℕ),
      stepsCost isLand { ps with L0Km := some L0 } W u ds ≤
        stepsCost isLand { ps with L0Km := some L0' } W u ds := by
  intro ds
  induction ds with
  | nil => intro u; simp [stepsCost]
  | cons d ds ih =>
    intro u
    simp only [stepsCost]
    exact add_le_add (stepCostTo_mono_L0 isLand ps L0 L0' h0 hlt hpix hmult _ _ _)
      (ih (move W u d))

/-- Whole path costs are monotone in the e-folding distance. -/
theorem walkCost_mono_L0 (isLand : List Bool) (sourceStrength : List ℝ)
    (ps : MoistureDijkstraParams) (W : ℕ) (L0 L0' : ℝ) (h0 : 0 < L0') (hlt : L0' < L0)
    (hpix : 0 ≤ ps.pixelKm.getD 50) (hmult : 0 ≤ ps.landBaseMultiplier.getD 1)
    (o : ℕ) (ds : List Dir4) :
    walkCost isLand sourceStrength { ps with L0Km := some L0 } W o ds ≤
      walkCost isLand sourceStrength { ps with L0Km := some L0' } W o ds := by
  unfold walkCost
  exact add_le_add_left (stepsCost_mono_L0 isLand ps W L0 L0' h0 hlt hpix hmult ds o) _

/-- The moisture value is always nonnegative. -/
theorem moistureOf_nonneg (c : WithTop ℝ) : 0 ≤ moistureOf c := by
  induction c using WithTop.recTopCoe with
  | top => rw [moistureOf_top]
  | coe x =>
    rw [moistureOf_coe]
    exact le_of_lt (Real.exp_pos _)

/-- The moisture value is antitone in the cost. -/
theorem moistureOf_antitone {a b : WithTop ℝ} (h : a ≤ b) :
    moistureOf b ≤ moistureOf a := by
  induction b using WithTop.recTopCoe with
  | top =>
    rw [moistureOf_top]
    exact moistureOf_nonneg a
  | coe y =>
    obtain ⟨x, hx, hxy⟩ := WithTop.le_coe_iff.mp h
    rw [hx, moistureOf_coe, moistureOf_coe]
    exact Real.exp_le_exp.mpr (neg_le_neg hxy)

/-- C6.  With all inputs fixed apart from the e-folding distance, and with
nonnegative pixel spacing and land multiplier, shrinking the e-folding
distance (`0 < L0' < L0`) never increases the returned moisture at any
cell. -/
theorem moisture_monotone_in_efolding (isLand : List Bool) (sourceStrength : List ℝ)
    (W H : ℕ) (ps : MoistureDijkstraParams) (fuelA fuelB : ℕ) (L0 L0' : ℝ)
    (h0 : 0 < L0') (hlt : L0' < L0)
    (hpix : 0 ≤ ps.pixelKm.getD 50) (hmult : 0 ≤ ps.landBaseMultiplier.getD 1)
    (hlen1 : isLand.length = W * H) (hlen2 : sourceStrength.length = W * H)
    (htermA : (dijkstraFinal isLand sourceStrength W H
        { ps with L0Km := some L0 } fuelA).heap = [])
    (htermB : (dijkstraFinal isLand sourceStrength W H
        { ps with L0Km := some L0' } fuelB).heap = []) :
    ∃ resA resB : MoistureDijkstraResult,
      computeMoistureAvailabilityDijkstra isLand sourceStrength W H
          { ps with L0Km := some L0 } fuelA = Except.ok resA ∧
      computeMoistureAvailabilityDijkstra isLand sourceStrength W H
          { ps with L0Km := some L0' } fuelB = Except.ok resB ∧
      ∀ p : ℕ, p < W * H → resB.moisture.getD p 0 ≤ resA.moisture.getD p 0 := by
  refine ⟨⟨(List.range (W * H)).map (fun p => moistureOf
        ((dijkstraFinal isLand sourceStrength W H { ps with L0Km := some L0 } fuelA).cost p)),
      (List.range (W * H)).map
        (dijkstraFinal isLand sourceStrength W H { ps with L0Km := some L0 } fuelA).src,
      (List.range (W * H)).map
        (dijkstraFinal isLand sourceStrength W H { ps with L0Km := some L0 } fuelA).prev,
      (List.range (W * H)).map
        (dijkstraFinal isLand sourceStrength W H { ps with L0Km := some L0 } fuelA).cost⟩,
    ⟨(List.range (W * H)).map (fun p => moistureOf
        ((dijkstraFinal isLand sourceStrength W H { ps with L0Km := some L0' } fuelB).cost p)),
      (List.range (W * H)).map
        (dijkstraFinal isLand sourceStrength W H { ps with L0Km := some L0' } fuelB).src,
      (List.range (W * H)).map
        (dijkstraFinal isLand sourceStrength W H { ps with L0Km := some L0' } fuelB).prev,
      (List.range (W * H)).map
        (dijkstraFinal isLand sourceStrength W H { ps with L0Km := some L0' } fuelB).cost⟩,
    ?_, ?_, ?_⟩
  · unfold computeMoistureAvailabilityDijkstra
    rw [if_neg (by rw [hlen1]; exact fun h => h rfl),
      if_neg (by rw [hlen2]; exact fun h => h rfl)]
  · unfold computeMoistureAvailabilityDijkstra
    rw [if_neg (by rw [hlen1]; exact fun h => h rfl),
      if_neg (by rw [hlen2]; exact fun h => h rfl)]
  · intro p hp
    rw [getD_map_range (W * H) _ p hp 0, getD_map_range (W * H) _ p hp 0]
    refine moistureOf_antitone ?_
    by_cases hr : Reachable isLand W H p
    · obtain ⟨⟨o, ds, hw, hceqB⟩, _⟩ :=
        (dijkstraFinal_spec isLand sourceStrength { ps with L0Km := some L0' } W H
          fuelB htermB p).2 hr
      have hminA := ((dijkstraFinal_spec isLand sourceStrength
        { ps with L0Km := some L0 } W H fuelA htermA p).2 hr).2 o ds hw
      calc (dijkstraFinal isLand sourceStrength W H
            { ps with L0Km := some L0 } fuelA).cost p
          ≤ ((walkCost isLand sourceStrength { ps with L0Km := some L0 } W o ds : ℝ) :
              WithTop ℝ) := hminA
        _ ≤ ((walkCost isLand sourceStrength { ps with L0Km := some L0' } W o ds : ℝ) :
              WithTop ℝ) := WithTop.coe_le_coe.mpr
            (walkCost_mono_L0 isLand sourceStrength ps W L0 L0' h0 hlt hpix hmult o ds)
        _ = (dijkstraFinal isLand sourceStrength W H
            { ps with L0Km := some L0' } fuelB).cost p := hceqB.symm
    · rw [(dijkstraFinal_spec isLand sourceStrength { ps with L0Km := some L0 } W H
        fuelA htermA p).1 hr,
        (dijkstraFinal_spec isLand sourceStrength { ps with L0Km := some L0' } W H
          fuelB htermB p).1 hr]

/-- Embedding of `clamp01` from `RecolorGridLayer.ts`
(`v < 0 ? 0 : v > 1 ? 1 : v`). -/
def clamp01 (v : ℝ) : ℝ := if v < 0 then 0 else if 1 < v then 1 else v

/-- Embedding of `deriveEffectiveSeaLevel_global`: the ice-adjusted sea
level, clamped into `[0, 255]`. -/
def deriveEffectiveSeaLevel (seaLevel iceLevel seaLevelDropDueToIce : ℝ) : ℝ :=
  let seaDrop := iceLevel * seaLevel * seaLevelDropDueToIce
  let eff := seaLevel - seaDrop
  let eff2 := if eff < 0 then 0 else eff
  if 255 < eff2 then 255 else eff2

/-- Per-pixel body of `colorPixelsBySeaLevel_global`: the land flag and the
height above sea of one cell. -/
def seaLevelPixel (elevation effectiveSeaLevel : ℝ) : ℕ × ℝ :=
  if elevation < effectiveSeaLevel then (0, 0)
  else
    let h := elevation - effectiveSeaLevel
    (1, if 255 < h then 255 else if h < 0 then 0 else h)

/-- Embedding of `colorPixelsBySeaLevel_global`: the whole-raster pass. -/
def colorPixelsBySeaLevel (elevations : List ℝ) (effectiveSeaLevel : ℝ) :
    List (ℕ × ℝ) :=
  elevations.map (fun e => seaLevelPixel e effectiveSeaLevel)

/-- The lower clamp is monotone. -/
theorem lowerClamp_mono {x y : ℝ} (h : x ≤ y) :
    (if x < 0 then 0 else x) ≤ (if y < 0 then 0 else y) := finalClamp_mono h

/-- The upper clamp is monotone. -/
theorem upperClamp_mono {x y : ℝ} (h : x ≤ y) :
    (if (255 : ℝ) < x then 255 else x) ≤ (if (255 : ℝ) < y then 255 else y) := by
  by_cases hx : (255 : ℝ) < x
  · rw [if_pos hx, if_pos (lt_of_lt_of_le hx h)]
  · rw [if_neg hx]
    by_cases hy : (255 : ℝ) < y
    · rw [if_pos hy]
      exact le_of_not_lt hx
    · rw [if_neg hy]
      exact h

/-- C7.  With `iceLevel` and `seaLevelDropDueToIce` fixed (and nonnegative,
as is the sea level itself), raising the sea level never lowers the
effective sea level, and never turns an ocean cell into land. -/
theorem effective_sea_level_monotone (iceLevel seaLevelDropDueToIce s1 s2 : ℝ)
    (hs1 : 0 ≤ s1) (h12 : s1 ≤ s2) (hice : 0 ≤ iceLevel)
    (hdrop : 0 ≤ seaLevelDropDueToIce) :
    deriveEffectiveSeaLevel s1 iceLevel seaLevelDropDueToIce ≤
      deriveEffectiveSeaLevel s2 iceLevel seaLevelDropDueToIce ∧
    ∀ (elevations : List ℝ) (p : ℕ), p < elevations.length →
      ((colorPixelsBySeaLevel elevations
          (deriveEffectiveSeaLevel s1 iceLevel seaLevelDropDueToIce)).getD p (1, 0)).1 = 0 →
      ((colorPixelsBySeaLevel elevations
          (deriveEffectiveSeaLevel s2 iceLevel seaLevelDropDueToIce)).getD p (1, 0)).1 = 0 := by
  have hmono : deriveEffectiveSeaLevel s1 iceLevel seaLevelDropDueToIce ≤
      deriveEffectiveSeaLevel s2 iceLevel seaLevelDropDueToIce := by
    unfold deriveEffectiveSeaLevel
    dsimp only
    have h1 : s1 - iceLevel * s1 * seaLevelDropDueToIce =
        s1 * (1 - iceLevel * seaLevelDropDueToIce) := by ring
    have h2 : s2 - iceLevel * s2 * seaLevelDropDueToIce =
        s2 * (1 - iceLevel * seaLevelDropDueToIce) := by ring
    by_cases hk : iceLevel * seaLevelDropDueToIce ≤ 1
    · apply upperClamp_mono
      apply lowerClamp_mono
      rw [h1, h2]
      exact mul_le_mul_of_nonneg_right h12 (by linarith)
    · have hk' : 1 < iceLevel * seaLevelDropDueToIce := lt_of_not_le hk
      have hs2 : 0 ≤ s2 := le_trans hs1 h12
      have hr1 : s1 - iceLevel * s1 * seaLevelDropDueToIce ≤ 0 := by
        rw [h1]
        exact mul_nonpos_of_nonneg_of_nonpos hs1 (by linarith)
      have hr2 : s2 - iceLevel * s2 * seaLevelDropDueToIce ≤ 0 := by
        rw [h2]
        exact mul_nonpos_of_nonneg_of_nonpos hs2 (by linarith)
      have hcl : ∀ x : ℝ, x ≤ 0 → (if x < 0 then (0 : ℝ) else x) = 0 := by
        intro x hx
        by_cases hx0 : x < 0
        · rw [if_pos hx0]
        · rw [if_neg hx0]
          exact le_antisymm hx (le_of_not_lt hx0)
      rw [hcl _ hr1, hcl _ hr2]
  refine ⟨hmono, ?_⟩
  intro elevations p hp hocean
  unfold colorPixelsBySeaLevel at hocean ⊢
  rw [List.getD_eq_getElem _ _ (by simpa using hp)] at hocean ⊢
  rw [List.getElem_map] at hocean ⊢
  unfold seaLevelPixel at hocean ⊢
  by_cases hlt : elevations[p] < deriveEffectiveSeaLevel s1 iceLevel seaLevelDropDueToIce
  · rw [if_pos (lt_of_lt_of_le hlt hmono)]
  · rw [if_neg hlt] at hocean
    simp at hocean

/-- Embedding of `_worldYToLatDeg_webMercator`: inverse Web-Mercator
latitude (degrees) of a world row. -/
def worldYToLatDeg (worldY worldHeight : ℝ) : ℝ :=
  let yNorm := (worldY + 0.5) / worldHeight
  let mercY := Real.pi * (1 - 2 * yNorm)
  let latRad := Real.arctan (Real.sinh mercY)
  latRad * 180 / Real.pi

/-- The parameters read by `colorPixelsByIce_global` from `ctx.params`. -/
structure IceParams where
  iceLevel : ℝ
  T_POLE : ℝ
  lapseRate : ℝ
  seasonalityStrength : ℝ
  continentalSeasonBoost : ℝ
  maxGlobalCooling : ℝ
  moistureScale : ℝ
  continentalScale : ℝ

/-- The output arrays written by `colorPixelsByIce_global`, modelled as
functions out of the cell index.  They persist across recomputes (the
source allocates them once in `buildWorldContext` and mutates in place). -/
structure IceOutputs where
  latitudeWeighting : ℕ → ℝ
  elevationWeighting : ℕ → ℝ
  landWeighting : ℕ → ℝ
  moistureAvailable : ℕ → ℝ
  combined : ℕ → ℝ
  threshold : ℕ → ℝ
  continentalFactor : ℕ → ℝ
  thermalGate : ℕ → ℝ
  effectiveAccumulation : ℕ → ℝ
  T_lat : ℕ → ℝ
  T_elev : ℕ → ℝ
  dT_global : ℕ → ℝ
  T_mean : ℕ → ℝ
  T_season : ℕ → ℝ
  T_cont : ℕ → ℝ
  Tw : ℕ → ℝ
  Ts : ℕ → ℝ
  meltPressure : ℕ → ℝ
  melt : ℕ → ℝ
  accum : ℕ → ℝ
  iceSupply : ℕ → ℝ
  iceLeft : ℕ → ℝ
  continental01 : ℕ → ℝ
  warmFraction : ℕ → ℝ
  coldFraction : ℕ → ℝ
  iceMask : ℕ → ℕ

/-- One iteration of the per-cell loop of `colorPixelsByIce_global`.  The
ocean branch (`isLandMask[p] === 0`) explicitly zeroes its outputs but
does not write `warmFraction` or `coldFraction`; the land branch computes
the temperature decomposition and the ice supply/melt balance. -/
def icePixel (prm : IceParams) (width : ℕ) (latByRow : ℕ → ℝ)
    (isLandMask : ℕ → ℕ) (heightAboveSea moistureAvailability continentalValue : ℕ → ℝ)
    (out : IceOutputs) (p : ℕ) : IceOutputs :=
  let gy := p / width
  let latitude := latByRow gy
  let x := |latitude|
  let latRad := x * Real.pi / 180
  let latitudeWeighting := Real.sin latRad
  let threshold := 1 - prm.iceLevel
  if isLandMask p = 0 then
    { out with
      iceMask := Function.update out.iceMask p 0
      latitudeWeighting := Function.update out.latitudeWeighting p latitudeWeighting
      elevationWeighting := Function.update out.elevationWeighting p 0
      landWeighting := Function.update out.landWeighting p 0
      moistureAvailable := Function.update out.moistureAvailable p 0
      combined := Function.update out.combined p 0
      threshold := Function.update out.threshold p threshold
      continentalFactor := Function.update out.continentalFactor p 0
      thermalGate := Function.update out.thermalGate p 0
      effectiveAccumulation := Function.update out.effectiveAccumulation p 0
      T_lat := Function.update out.T_lat p 0
      T_elev := Function.update out.T_elev p 0
      dT_global := Function.update out.dT_global p 0
      T_mean := Function.update out.T_mean p 0
      T_season := Function.update out.T_season p 0
      T_cont := Function.update out.T_cont p 0
      Tw := Function.update out.Tw p 0
      Ts := Function.update out.Ts p 0
      meltPressure := Function.update out.meltPressure p 0
      melt := Function.update out.melt p 0
      accum := Function.update out.accum p 0
      iceSupply := Function.update out.iceSupply p 0
      iceLeft := Function.update out.iceLeft p 0
      continental01 := Function.update out.continental01 p 0 }
  else
    let elevation_m := heightAboveSea p * 77
    let elevation_km := elevation_m / 1000
    let landWeighting : ℝ := -1
    let moistureAvailable := moistureAvailability p * prm.moistureScale
    let accum := moistureAvailable
    let f := Real.cos latRad ^ (1.3 : ℝ)
    let T_lat := prm.T_POLE + (27 - prm.T_POLE) * f
    let T_elev := -prm.lapseRate * elevation_km
    let dT_global := -prm.maxGlobalCooling * prm.iceLevel
    let T_mean := T_lat + T_elev + dT_global
    let continentalRaw := continentalValue p * prm.continentalScale
    let continental01 := clamp01 ((continentalRaw - 0.5) / (1 - 0.5))
    let T_cont := prm.continentalSeasonBoost * continental01
    let T_season := prm.seasonalityStrength * Real.sin latRad + T_cont
    let Tw := T_mean - T_season
    let Ts := T_mean + T_season
    let coldFraction := if 0 ≤ Tw then 0 else clamp01 ((-Tw) / (Ts - Tw))
    let ice := accum * coldFraction
    let meltPressure := max 0 Ts
    let denom := Ts - Tw
    let warmFraction := if meltPressure ≤ 0 ∨ denom ≤ 1e-6 then 0
      else clamp01 (meltPressure / denom)
    let melt := 0.05 * meltPressure * warmFraction
    let iceLeft := ice - melt
    { latitudeWeighting := Function.update out.latitudeWeighting p latitudeWeighting
      elevationWeighting := Function.update out.elevationWeighting p (-1)
      landWeighting := Function.update out.landWeighting p landWeighting
      moistureAvailable := Function.update out.moistureAvailable p moistureAvailable
      combined := Function.update out.combined p (clamp01 iceLeft)
      threshold := Function.update out.threshold p threshold
      continentalFactor := Function.update out.continentalFactor p continentalRaw
      thermalGate := Function.update out.thermalGate p (if Tw ≤ 0 then 1 else 0)
      effectiveAccumulation := Function.update out.effectiveAccumulation p ice
      T_lat := Function.update out.T_lat p T_lat
      T_elev := Function.update out.T_elev p T_elev
      dT_global := Function.update out.dT_global p dT_global
      T_mean := Function.update out.T_mean p T_mean
      T_season := Function.update out.T_season p T_season
      T_cont := Function.update out.T_cont p T_cont
      Tw := Function.update out.Tw p Tw
      Ts := Function.update out.Ts p Ts
      meltPressure := Function.update out.meltPressure p meltPressure
      melt := Function.update out.melt p melt
      accum := Function.update out.accum p accum
      iceSupply := Function.update out.iceSupply p ice
      iceLeft := Function.update out.iceLeft p iceLeft
      continental01 := Function.update out.continental01 p continental01
      warmFraction := Function.update out.warmFraction p warmFraction
      coldFraction := Function.update out.coldFraction p coldFraction
      iceMask := Function.update out.iceMask p (if 0 < iceLeft then 1 else 0) }

/-- Embedding of `colorPixelsByIce_global`: latitude per world row via the
inverse Web-Mercator helper, then the per-cell loop over the raster. -/
def colorPixelsByIce (prm : IceParams) (width height : ℕ)
    (isLandMask : ℕ → ℕ) (heightAboveSea moistureAvailability continentalValue : ℕ → ℝ)
    (out0 : IceOutputs) : IceOutputs :=
  let latByRow := fun gy : ℕ => worldYToLatDeg (gy : ℝ) (height : ℝ)
  (List.range (width * height)).foldl
    (icePixel prm width latByRow isLandMask heightAboveSea moistureAvailability
      continentalValue) out0

/-- Pointwise agreement of two output banks on the thermal/ice fields at
one cell. -/
def outEqAt (o1 o2 : IceOutputs) (q : ℕ) : Prop :=
  o1.T_lat q = o2.T_lat q ∧ o1.T_elev q = o2.T_elev q ∧
  o1.dT_global q = o2.dT_global q ∧ o1.T_mean q = o2.T_mean q ∧
  o1.T_season q = o2.T_season q ∧ o1.T_cont q = o2.T_cont q ∧
  o1.Tw q = o2.Tw q ∧ o1.Ts q = o2.Ts q ∧
  o1.meltPressure q = o2.meltPressure q ∧ o1.melt q = o2.melt q ∧
  o1.accum q = o2.accum q ∧ o1.iceSupply q = o2.iceSupply q ∧
  o1.iceLeft q = o2.iceLeft q ∧ o1.continental01 q = o2.continental01 q ∧
  o1.warmFraction q = o2.warmFraction q ∧ o1.coldFraction q = o2.coldFraction q ∧
  o1.iceMask q = o2.iceMask q

/-- Transitivity of pointwise agreement. -/
theorem outEqAt_trans {o1 o2 o3 : IceOutputs} {q : ℕ}
    (h1 : outEqAt o1 o2 q) (h2 : outEqAt o2 o3 q) : outEqAt o1 o3 q := by
  obtain ⟨a1, a2, a3, a4, a5, a6, a7, a8, a9, a10, a11, a12, a13, a14, a15, a16, a17⟩ := h1
  obtain ⟨b1, b2, b3, b4, b5, b6, b7, b8, b9, b10, b11, b12, b13, b14, b15, b16, b17⟩ := h2
  exact ⟨a1.trans b1, a2.trans b2, a3.trans b3, a4.trans b4, a5.trans b5, a6.trans b6,
    a7.trans b7, a8.trans b8, a9.trans b9, a10.trans b10, a11.trans b11, a12.trans b12,
    a13.trans b13, a14.trans b14, a15.trans b15, a16.trans b16, a17.trans b17⟩

/-- One cell's write leaves every other cell's fields untouched. -/
theorem icePixel_ne (prm : IceParams) (W : ℕ) (latByRow : ℕ → ℝ)
    (isLandMask : ℕ → ℕ) (hAS mAv cV : ℕ → ℝ) (out : IceOutputs) (p q : ℕ)
    (hqp : q ≠ p) :
    outEqAt (icePixel prm W latByRow isLandMask hAS mAv cV out p) out q := by
  unfold icePixel
  dsimp only
  split
  · exact ⟨Function.update_noteq hqp _ _, Function.update_noteq hqp _ _,
      Function.update_noteq hqp _ _, Function.update_noteq hqp _ _,
      Function.update_noteq hqp _ _, Function.update_noteq hqp _ _,
      Function.update_noteq hqp _ _, Function.update_noteq hqp _ _,
      Function.update_noteq hqp _ _, Function.update_noteq hqp _ _,
      Function.update_noteq hqp _ _, Function.update_noteq hqp _ _,
      Function.update_noteq hqp _ _, Function.update_noteq hqp _ _,
      rfl, rfl, Function.update_noteq hqp _ _⟩
  · exact ⟨Function.update_noteq hqp _ _, Function.update_noteq hqp _ _,
      Function.update_noteq hqp _ _, Function.update_noteq hqp _ _,
      Function.update_noteq hqp _ _, Function.update_noteq hqp _ _,
      Function.update_noteq hqp _ _, Function.update_noteq hqp _ _,
      Function.update_noteq hqp _ _, Function.update_noteq hqp _ _,
      Function.update_noteq hqp _ _, Function.update_noteq hqp _ _,
      Function.update_noteq hqp _ _, Function.update_noteq hqp _ _,
      Function.update_noteq hqp _ _, Function.update_noteq hqp _ _,
      Function.update_noteq hqp _ _⟩

/-- Folding over cells not containing `q` leaves `q`'s fields untouched. -/
theorem icePixel_foldl_ne (prm : IceParams) (W : ℕ) (latByRow : ℕ → ℝ)
    (isLandMask : ℕ → ℕ) (hAS mAv cV : ℕ → ℝ) :
    ∀ (l : List ℕ) (out : IceOutputs) (q : ℕ), q ∉ l →
      outEqAt (l.foldl (icePixel prm W latByRow isLandMask hAS mAv cV) out) out q := by
  intro l
  induction l with
  | nil =>
    intro out q _
    exact ⟨rfl, rfl, rfl, rfl, rfl, rfl, rfl, rfl, rfl, rfl, rfl, rfl, rfl, rfl, rfl,
      rfl, rfl⟩
  | cons a l ih =>
    intro out q hq
    rw [List.foldl_cons]
    have hqa : q ≠ a := fun hc => hq (hc ▸ List.mem_cons_self a l)
    have hql : q ∉ l := fun hc => hq (List.mem_cons_of_mem a hc)
    exact outEqAt_trans (ih _ q hql)
      (icePixel_ne prm W latByRow isLandMask hAS mAv cV out a q hqa)

/-- The latitude in radians used for cell `q` (absolute latitude of its
world row, converted to radians). -/
def iceLatRadAt (latByRow : ℕ → ℝ) (W q : ℕ) : ℝ :=
  |latByRow (q / W)| * Real.pi / 180

/-- Ocean branch of one cell's write: the listed thermal/ice outputs are
zeroed, `iceMask` is cleared, and `warmFraction`/`coldFraction` are NOT
written (they keep whatever the bank held before). -/
theorem icePixel_self_ocean (prm : IceParams) (W : ℕ) (latByRow : ℕ → ℝ)
    (isLandMask : ℕ → ℕ) (hAS mAv cV : ℕ → ℝ) (out : IceOutputs) (p : ℕ)
    (hoc : isLandMask p = 0) :
    (icePixel prm W latByRow isLandMask hAS mAv cV out p).T_lat p = 0 ∧
    (icePixel prm W latByRow isLandMask hAS mAv cV out p).T_elev p = 0 ∧
    (icePixel prm W latByRow isLandMask hAS mAv cV out p).dT_global p = 0 ∧
    (icePixel prm W latByRow isLandMask hAS mAv cV out p).T_mean p = 0 ∧
    (icePixel prm W latByRow isLandMask hAS mAv cV out p).T_season p = 0 ∧
    (icePixel prm W latByRow isLandMask hAS mAv cV out p).T_cont p = 0 ∧
    (icePixel prm W latByRow isLandMask hAS mAv cV out p).Tw p = 0 ∧
    (icePixel prm W latByRow isLandMask hAS mAv cV out p).Ts p = 0 ∧
    (icePixel prm W latByRow isLandMask hAS mAv cV out p).meltPressure p = 0 ∧
    (icePixel prm W latByRow isLandMask hAS mAv cV out p).melt p = 0 ∧
    (icePixel prm W latByRow isLandMask hAS mAv cV out p).accum p = 0 ∧
    (icePixel prm W latByRow isLandMask hAS mAv cV out p).iceSupply p = 0 ∧
    (icePixel prm W latByRow isLandMask hAS mAv cV out p).iceLeft p = 0 ∧
    (icePixel prm W latByRow isLandMask hAS mAv cV out p).continental01 p = 0 ∧
    (icePixel prm W latByRow isLandMask hAS mAv cV out p).iceMask p = 0 ∧
    (icePixel prm W latByRow isLandMask hAS mAv cV out p).warmFraction p =
      out.warmFraction p ∧
    (icePixel prm W latByRow isLandMask hAS mAv cV out p).coldFraction p =
      out.coldFraction p := by
  unfold icePixel
  dsimp only
  rw [if_pos hoc]
  dsimp only
  exact ⟨Function.update_same _ _ _, Function.update_same _ _ _, Function.update_same _ _ _,
    Function.update_same _ _ _, Function.update_same _ _ _, Function.update_same _ _ _,
    Function.update_same _ _ _, Function.update_same _ _ _, Function.update_same _ _ _,
    Function.update_same _ _ _, Function.update_same _ _ _, Function.update_same _ _ _,
    Function.update_same _ _ _, Function.update_same _ _ _, Function.update_same _ _ _,
    rfl, rfl⟩

/-- Land branch of one cell's write: the temperature decomposition, the
hard-coded `COAST = 0.5` linear continental ramp, and the warm fraction. -/
theorem icePixel_self_land (prm : IceParams) (W : ℕ) (latByRow : ℕ → ℝ)
    (isLandMask : ℕ → ℕ) (hAS mAv cV : ℕ → ℝ) (out : IceOutputs) (p : ℕ)
    (hoc : isLandMask p ≠ 0) :
    (icePixel prm W latByRow isLandMask hAS mAv cV out p).T_lat p =
      prm.T_POLE + (27 - prm.T_POLE) *
        Real.cos (iceLatRadAt latByRow W p) ^ (1.3 : ℝ) ∧
    (icePixel prm W latByRow isLandMask hAS mAv cV out p).T_elev p =
      -prm.lapseRate * (hAS p * 77 / 1000) ∧
    (icePixel prm W latByRow isLandMask hAS mAv cV out p).dT_global p =
      -prm.maxGlobalCooling * prm.iceLevel ∧
    (icePixel prm W latByRow isLandMask hAS mAv cV out p).T_mean p =
      (icePixel prm W latByRow isLandMask hAS mAv cV out p).T_lat p +
        (icePixel prm W latByRow isLandMask hAS mAv cV out p).T_elev p +
        (icePixel prm W latByRow isLandMask hAS mAv cV out p).dT_global p ∧
    (icePixel prm W latByRow isLandMask hAS mAv cV out p).continental01 p =
      clamp01 ((cV p * prm.continentalScale - 0.5) / (1 - 0.5)) ∧
    (icePixel prm W latByRow isLandMask hAS mAv cV out p).T_cont p =
      prm.continentalSeasonBoost *
        (icePixel prm W latByRow isLandMask hAS mAv cV out p).continental01 p ∧
    (icePixel prm W latByRow isLandMask hAS mAv cV out p).T_season p =
      prm.seasonalityStrength * Real.sin (iceLatRadAt latByRow W p) +
        (icePixel prm W latByRow isLandMask hAS mAv cV out p).T_cont p ∧
    (icePixel prm W latByRow isLandMask hAS mAv cV out p).Tw p =
      (icePixel prm W latByRow isLandMask hAS mAv cV out p).T_mean p -
        (icePixel prm W latByRow isLandMask hAS mAv cV out p).T_season p ∧
    (icePixel prm W latByRow isLandMask hAS mAv cV out p).Ts p =
      (icePixel prm W latByRow isLandMask hAS mAv cV out p).T_mean p +
        (icePixel prm W latByRow isLandMask hAS mAv cV out p).T_season p ∧
    (icePixel prm W latByRow isLandMask hAS mAv cV out p).meltPressure p =
      max 0 ((icePixel prm W latByRow isLandMask hAS mAv cV out p).Ts p) ∧
    (icePixel prm W latByRow isLandMask hAS mAv cV out p).warmFraction p =
      (if (icePixel prm W latByRow isLandMask hAS mAv cV out p).meltPressure p ≤ 0 ∨
          (icePixel prm W latByRow isLandMask hAS mAv cV out p).Ts p -
            (icePixel prm W latByRow isLandMask hAS mAv cV out p).Tw p ≤ 1e-6 then 0
        else clamp01 ((icePixel prm W latByRow isLandMask hAS mAv cV out p).meltPressure p /
          ((icePixel prm W latByRow isLandMask hAS mAv cV out p).Ts p -
            (icePixel prm W latByRow isLandMask hAS mAv cV out p).Tw p))) := by
  unfold icePixel iceLatRadAt
  dsimp only
  rw [if_neg hoc]
  dsimp only
  simp [Function.update_same]

/-- What the ocean branch guarantees for one cell of the result bank
(relative to the pre-pass bank `out`, which `warmFraction` and
`coldFraction` silently keep). -/
def IceOceanSpec (res out : IceOutputs) (q : ℕ) : Prop :=
  res.T_lat q = 0 ∧ res.T_elev q = 0 ∧ res.dT_global q = 0 ∧ res.T_mean q = 0 ∧
  res.T_season q = 0 ∧ res.T_cont q = 0 ∧ res.Tw q = 0 ∧ res.Ts q = 0 ∧
  res.meltPressure q = 0 ∧ res.melt q = 0 ∧ res.accum q = 0 ∧ res.iceSupply q = 0 ∧
  res.iceLeft q = 0 ∧ res.continental01 q = 0 ∧ res.iceMask q = 0 ∧
  res.warmFraction q = out.warmFraction q ∧ res.coldFraction q = out.coldFraction q

/-- What the land branch guarantees for one cell of the result bank. -/
def IceLandSpec (prm : IceParams) (latByRow : ℕ → ℝ) (W : ℕ) (hAS cV : ℕ → ℝ)
    (res : IceOutputs) (q : ℕ) : Prop :=
  res.T_lat q = prm.T_POLE + (27 - prm.T_POLE) *
      Real.cos (iceLatRadAt latByRow W q) ^ (1.3 : ℝ) ∧
  res.T_elev q = -prm.lapseRate * (hAS q * 77 / 1000) ∧
  res.dT_global q = -prm.maxGlobalCooling * prm.iceLevel ∧
  res.T_mean q = res.T_lat q + res.T_elev q + res.dT_global q ∧
  res.continental01 q = clamp01 ((cV q * prm.continentalScale - 0.5) / (1 - 0.5)) ∧
  res.T_cont q = prm.continentalSeasonBoost * res.continental01 q ∧
  res.T_season q = prm.seasonalityStrength * Real.sin (iceLatRadAt latByRow W q) +
    res.T_cont q ∧
  res.Tw q = res.T_mean q - res.T_season q ∧
  res.Ts q = res.T_mean q + res.T_season q ∧
  res.meltPressure q = max 0 (res.Ts q) ∧
  res.warmFraction q =
    (if res.meltPressure q ≤ 0 ∨ res.Ts q - res.Tw q ≤ 1e-6 then 0
      else clamp01 (res.meltPressure q / (res.Ts q - res.Tw q)))

/-- The ocean spec transfers along pointwise agreement of the result. -/
theorem iceOceanSpec_transfer {res pix out : IceOutputs} {q : ℕ}
    (he : outEqAt res pix q) (h : IceOceanSpec pix out q) : IceOceanSpec res out q := by
  obtain ⟨e1, e2, e3, e4, e5, e6, e7, e8, e9, e10, e11, e12, e13, e14, e15, e16, e17⟩ := he
  unfold IceOceanSpec at h ⊢
  rw [e1, e2, e3, e4, e5, e6, e7, e8, e9, e10, e11, e12, e13, e14, e15, e16, e17]
  exact h

/-- The ocean spec's stale fields transfer along agreement of the old bank. -/
theorem iceOceanSpec_shift {res out' out : IceOutputs} {q : ℕ}
    (he : outEqAt out' out q) (h : IceOceanSpec res out' q) : IceOceanSpec res out q := by
  obtain ⟨_, _, _, _, _, _, _, _, _, _, _, _, _, _, e15, e16, _⟩ := he
  obtain ⟨z1, z2, z3, z4, z5, z6, z7, z8, z9, z10, z11, z12, z13, z14, z15, hw, hc⟩ := h
  exact ⟨z1, z2, z3, z4, z5, z6, z7, z8, z9, z10, z11, z12, z13, z14, z15,
    hw.trans e15, hc.trans e16⟩

/-- The land spec transfers along pointwise agreement of the result. -/
theorem iceLandSpec_transfer {prm : IceParams} {latByRow : ℕ → ℝ} {W : ℕ}
    {hAS cV : ℕ → ℝ} {res pix : IceOutputs} {q : ℕ}
    (he : outEqAt res pix q) (h : IceLandSpec prm latByRow W hAS cV pix q) :
    IceLandSpec prm latByRow W hAS cV res q := by
  obtain ⟨e1, e2, e3, e4, e5, e6, e7, e8, e9, e10, e11, e12, e13, e14, e15, e16, e17⟩ := he
  unfold IceLandSpec at h ⊢
  rw [e1, e2, e3, e4, e5, e6, e7, e8, e9, e14, e15]
  exact h

/-- Per-cell characterisation of the whole ice pass over a duplicate-free
index list. -/
theorem icePixel_foldl_char (prm : IceParams) (W : ℕ) (latByRow : ℕ → ℝ)
    (isLandMask : ℕ → ℕ) (hAS mAv cV : ℕ → ℝ) :
    ∀ (l : List ℕ), l.Nodup → ∀ (out : IceOutputs) (q : ℕ), q ∈ l →
      (isLandMask q = 0 →
        IceOceanSpec (l.foldl (icePixel prm W latByRow isLandMask hAS mAv cV) out) out q) ∧
      (isLandMask q ≠ 0 →
        IceLandSpec prm latByRow W hAS cV
          (l.foldl (icePixel prm W latByRow isLandMask hAS mAv cV) out) q) := by
  intro l
  induction l with
  | nil =>
    intro _ out q hq
    simp at hq
  | cons a l ih =>
    intro hnd out q hq
    obtain ⟨ha, hnd'⟩ := List.nodup_cons.mp hnd
    rw [List.foldl_cons]
    rcases List.mem_cons.mp hq with rfl | hql
    · have hnotin : q ∉ l := ha
      have he := icePixel_foldl_ne prm W latByRow isLandMask hAS mAv cV l
        (icePixel prm W latByRow isLandMask hAS mAv cV out q) q hnotin
      constructor
      · intro hoc
        refine iceOceanSpec_transfer he ?_
        exact icePixel_self_ocean prm W latByRow isLandMask hAS mAv cV out q hoc
      · intro hoc
        refine iceLandSpec_transfer he ?_
        exact icePixel_self_land prm W latByRow isLandMask hAS mAv cV out q hoc
    · have hqa : q ≠ a := fun hc => ha (hc ▸ hql)
      obtain ⟨hoc', hland'⟩ := ih hnd'
        (icePixel prm W latByRow isLandMask hAS mAv cV out a) q hql
      constructor
      · intro hoc
        have hne := icePixel_ne prm W latByRow isLandMask hAS mAv cV out a q hqa
        exact iceOceanSpec_shift hne (hoc' hoc)
      · exact hland'

/-- Per-cell characterisation of `colorPixelsByIce`. -/
theorem colorPixelsByIce_char (prm : IceParams) (W H : ℕ)
    (isLandMask : ℕ → ℕ) (hAS mAv cV : ℕ → ℝ) (out0 : IceOutputs) (q : ℕ)
    (hq : q < W * H) :
    (isLandMask q = 0 →
      IceOceanSpec (colorPixelsByIce prm W H isLandMask hAS mAv cV out0) out0 q) ∧
    (isLandMask q ≠ 0 →
      IceLandSpec prm (fun gy : ℕ => worldYToLatDeg (gy : ℝ) (H : ℝ)) W hAS cV
        (colorPixelsByIce prm W H isLandMask hAS mAv cV out0) q) := by
  exact icePixel_foldl_char prm W (fun gy : ℕ => worldYToLatDeg (gy : ℝ) (H : ℝ))
    isLandMask hAS mAv cV (List.range (W * H)) (List.nodup_range _) out0 q
    (List.mem_range.mpr hq)

/-- A freshly allocated output bank (`Float32Array`s are zero-filled). -/
def zeroIceOutputs : IceOutputs :=
  { latitudeWeighting := fun _ => 0
    elevationWeighting := fun _ => 0
    landWeighting := fun _ => 0
    moistureAvailable := fun _ => 0
    combined := fun _ => 0
    threshold := fun _ => 0
    continentalFactor := fun _ => 0
    thermalGate := fun _ => 0
    effectiveAccumulation := fun _ => 0
    T_lat := fun _ => 0
    T_elev := fun _ => 0
    dT_global := fun _ => 0
    T_mean := fun _ => 0
    T_season := fun _ => 0
    T_cont := fun _ => 0
    Tw := fun _ => 0
    Ts := fun _ => 0
    meltPressure := fun _ => 0
    melt := fun _ => 0
    accum := fun _ => 0
    iceSupply := fun _ => 0
    iceLeft := fun _ => 0
    continental01 := fun _ => 0
    warmFraction := fun _ => 0
    coldFraction := fun _ => 0
    iceMask := fun _ => 0 }

/-- C8.  On every land cell the thermal model computes the claimed
temperature decomposition: `T_lat = T_pole + (27 − T_pole)·cos(latRad)^1.3`,
`T_elev = −lapseRate·(elevation metres)/1000`,
`T_global = −maxGlobalCooling·iceLevel`, their sum as the mean, the
seasonal term `seasonalityStrength·sin(latRad) +
continentalSeasonBoost·continental01`, and winter/summer as mean ∓/± the
seasonal term. -/
theorem ice_thermal_decomposition (prm : IceParams) (W H : ℕ)
    (isLandMask : ℕ → ℕ) (hAS mAv cV : ℕ → ℝ) (out0 : IceOutputs) (q : ℕ)
    (hq : q < W * H) (hland : isLandMask q ≠ 0) :
    (colorPixelsByIce prm W H isLandMask hAS mAv cV out0).T_lat q =
      prm.T_POLE + (27 - prm.T_POLE) * Real.cos (iceLatRadAt
        (fun gy : ℕ => worldYToLatDeg (gy : ℝ) (H : ℝ)) W q) ^ (1.3 : ℝ) ∧
    (colorPixelsByIce prm W H isLandMask hAS mAv cV out0).T_elev q =
      -prm.lapseRate * (hAS q * 77 / 1000) ∧
    (colorPixelsByIce prm W H isLandMask hAS mAv cV out0).dT_global q =
      -prm.maxGlobalCooling * prm.iceLevel ∧
    (colorPixelsByIce prm W H isLandMask hAS mAv cV out0).T_mean q =
      (colorPixelsByIce prm W H isLandMask hAS mAv cV out0).T_lat q +
        (colorPixelsByIce prm W H isLandMask hAS mAv cV out0).T_elev q +
        (colorPixelsByIce prm W H isLandMask hAS mAv cV out0).dT_global q ∧
    (colorPixelsByIce prm W H isLandMask hAS mAv cV out0).T_season q =
      prm.seasonalityStrength * Real.sin (iceLatRadAt
          (fun gy : ℕ => worldYToLatDeg (gy : ℝ) (H : ℝ)) W q) +
        prm.continentalSeasonBoost *
          (colorPixelsByIce prm W H isLandMask hAS mAv cV out0).continental01 q ∧
    (colorPixelsByIce prm W H isLandMask hAS mAv cV out0).Tw q =
      (colorPixelsByIce prm W H isLandMask hAS mAv cV out0).T_mean q -
        (colorPixelsByIce prm W H isLandMask hAS mAv cV out0).T_season q ∧
    (colorPixelsByIce prm W H isLandMask hAS mAv cV out0).Ts q =
      (colorPixelsByIce prm W H isLandMask hAS mAv cV out0).T_mean q +
        (colorPixelsByIce prm W H isLandMask hAS mAv cV out0).T_season q := by
  obtain ⟨h1, h2, h3, h4, h5, h6, h7, h8, h9, _, _⟩ :=
    (colorPixelsByIce_char prm W H isLandMask hAS mAv cV out0 q hq).2 hland
  refine ⟨h1, h2, h3, h4, ?_, h8, h9⟩
  rw [h7, h6]

/-- C5 (amended).  On every land cell the thermal model's continental ramp
is the linear clamp `continental01 = clamp01((continentalValue·
continentalScale − 0.5)/(1 − 0.5))` with the hard-coded coastal constant
`0.5`; it does not read the `coastalThreshold` parameter and applies no
power ramp. -/
theorem ice_continental01_hardcoded (prm : IceParams) (W H : ℕ)
    (isLandMask : ℕ → ℕ) (hAS mAv cV : ℕ → ℝ) (out0 : IceOutputs) (q : ℕ)
    (hq : q < W * H) (hland : isLandMask q ≠ 0) :
    (colorPixelsByIce prm W H isLandMask hAS mAv cV out0).continental01 q =
      clamp01 ((cV q * prm.continentalScale - 0.5) / (1 - 0.5)) := by
  obtain ⟨_, _, _, _, h5, _⟩ :=
    (colorPixelsByIce_char prm W H isLandMask hAS mAv cV out0 q hq).2 hland
  exact h5

/-- The continental seasonal ramp as the specification words it, computed
from the `coastalThreshold` parameter (for comparison with the code's
hard-coded `COAST = 0.5` linear ramp). -/
def continental01Spec (continentalValue continentalScale coastalThreshold : ℝ) : ℝ :=
  clamp01 ((continentalValue * continentalScale - coastalThreshold) /
    (1 - coastalThreshold))

/-- C5 fails on the code: with `coastalThreshold = 1/4` and a cell whose
scaled continental value is `1/2`, the claimed formula yields `1/3` while
the thermal model computes `0` (it uses the hard-coded constant `0.5`). -/
theorem ice_continental01_cex :
    (colorPixelsByIce
        ⟨0, 27, 0, 0, 0, 0, 0, 1⟩ 1 1 (fun _ => 1) (fun _ => 0) (fun _ => 0)
        (fun _ => 1 / 2) zeroIceOutputs).continental01 0 = 0 ∧
    continental01Spec (1 / 2) 1 (1 / 4) = 1 / 3 ∧ (0 : ℝ) ≠ 1 / 3 := by
  refine ⟨?_, ?_, by norm_num⟩
  · have h := ice_continental01_hardcoded ⟨0, 27, 0, 0, 0, 0, 0, 1⟩ 1 1 (fun _ => 1)
      (fun _ => 0) (fun _ => 0) (fun _ => 1 / 2) zeroIceOutputs 0 (by norm_num)
      (by norm_num)
    rw [h]
    unfold clamp01
    norm_num
  · unfold continental01Spec clamp01
    norm_num

/-- C9 fails on the code: recompute a one-cell world first as land (with
parameters making its warm fraction `1`), then as ocean.  After the second
recompute every listed thermal/ice field is zeroed and the ice mask is
cleared, but `warmFraction` still holds the stale land value `1` instead
of `0`: the ocean branch never writes `warmFraction`/`coldFraction`. -/
theorem ice_ocean_zeroing_stale_cex :
    (colorPixelsByIce ⟨0, 27, 0, 0, 10, 0, 0, 1⟩ 1 1 (fun _ => 0) (fun _ => 0)
        (fun _ => 0) (fun _ => 1)
        (colorPixelsByIce ⟨0, 27, 0, 0, 10, 0, 0, 1⟩ 1 1 (fun _ => 1) (fun _ => 0)
          (fun _ => 0) (fun _ => 1) zeroIceOutputs)).T_lat 0 = 0 ∧
    (colorPixelsByIce ⟨0, 27, 0, 0, 10, 0, 0, 1⟩ 1 1 (fun _ => 0) (fun _ => 0)
        (fun _ => 0) (fun _ => 1)
        (colorPixelsByIce ⟨0, 27, 0, 0, 10, 0, 0, 1⟩ 1 1 (fun _ => 1) (fun _ => 0)
          (fun _ => 0) (fun _ => 1) zeroIceOutputs)).iceMask 0 = 0 ∧
    (colorPixelsByIce ⟨0, 27, 0, 0, 10, 0, 0, 1⟩ 1 1 (fun _ => 0) (fun _ => 0)
        (fun _ => 0) (fun _ => 1)
        (colorPixelsByIce ⟨0, 27, 0, 0, 10, 0, 0, 1⟩ 1 1 (fun _ => 1) (fun _ => 0)
          (fun _ => 0) (fun _ => 1) zeroIceOutputs)).warmFraction 0 = 1 ∧
    (1 : ℝ) ≠ 0 := by
  have hrun1 := (colorPixelsByIce_char ⟨0, 27, 0, 0, 10, 0, 0, 1⟩ 1 1 (fun _ => 1)
    (fun _ => 0) (fun _ => 0) (fun _ => 1) zeroIceOutputs 0 (by norm_num)).2
    (by norm_num)
  obtain ⟨h1, h2, h3, h4, h5, h6, h7, h8, h9, h10, h11⟩ := hrun1
  have hTlat : (colorPixelsByIce ⟨0, 27, 0, 0, 10, 0, 0, 1⟩ 1 1 (fun _ => 1)
      (fun _ => 0) (fun _ => 0) (fun _ => 1) zeroIceOutputs).T_lat 0 = 27 := by
    rw [h1]; norm_num
  have hTelev : (colorPixelsByIce ⟨0, 27, 0, 0, 10, 0, 0, 1⟩ 1 1 (fun _ => 1)
      (fun _ => 0) (fun _ => 0) (fun _ => 1) zeroIceOutputs).T_elev 0 = 0 := by
    rw [h2]; norm_num
  have hTglob : (colorPixelsByIce ⟨0, 27, 0, 0, 10, 0, 0, 1⟩ 1 1 (fun _ => 1)
      (fun _ => 0) (fun _ => 0) (fun _ => 1) zeroIceOutputs).dT_global 0 = 0 := by
    rw [h3]; norm_num
  have hTmean : (colorPixelsByIce ⟨0, 27, 0, 0, 10, 0, 0, 1⟩ 1 1 (fun _ => 1)
      (fun _ => 0) (fun _ => 0) (fun _ => 1) zeroIceOutputs).T_mean 0 = 27 := by
    rw [h4, hTlat, hTelev, hTglob]; norm_num
  have hcont : (colorPixelsByIce ⟨0, 27, 0, 0, 10, 0, 0, 1⟩ 1 1 (fun _ => 1)
      (fun _ => 0) (fun _ => 0) (fun _ => 1) zeroIceOutputs).continental01 0 = 1 := by
    rw [h5]
    unfold clamp01
    norm_num
  have hTseason : (colorPixelsByIce ⟨0, 27, 0, 0, 10, 0, 0, 1⟩ 1 1 (fun _ => 1)
      (fun _ => 0) (fun _ => 0) (fun _ => 1) zeroIceOutputs).T_season 0 = 10 := by
    rw [h7, h6, hcont]; norm_num
  have hTw : (colorPixelsByIce ⟨0, 27, 0, 0, 10, 0, 0, 1⟩ 1 1 (fun _ => 1)
      (fun _ => 0) (fun _ => 0) (fun _ => 1) zeroIceOutputs).Tw 0 = 17 := by
    rw [h8, hTmean, hTseason]; norm_num
  have hTs : (colorPixelsByIce ⟨0, 27, 0, 0, 10, 0, 0, 1⟩ 1 1 (fun _ => 1)
      (fun _ => 0) (fun _ => 0) (fun _ => 1) zeroIceOutputs).Ts 0 = 37 := by
    rw [h9, hTmean, hTseason]; norm_num
  have hmp : (colorPixelsByIce ⟨0, 27, 0, 0, 10, 0, 0, 1⟩ 1 1 (fun _ => 1)
      (fun _ => 0) (fun _ => 0) (fun _ => 1) zeroIceOutputs).meltPressure 0 = 37 := by
    rw [h10, hTs]
    norm_num
  have hwarm1 : (colorPixelsByIce ⟨0, 27, 0, 0, 10, 0, 0, 1⟩ 1 1 (fun _ => 1)
      (fun _ => 0) (fun _ => 0) (fun _ => 1) zeroIceOutputs).warmFraction 0 = 1 := by
    rw [h11, hmp, hTs, hTw]
    rw [if_neg (by norm_num)]
    unfold clamp01
    norm_num
  have hrun2 := (colorPixelsByIce_char ⟨0, 27, 0, 0, 10, 0, 0, 1⟩ 1 1 (fun _ => 0)
    (fun _ => 0) (fun _ => 0) (fun _ => 1)
    (colorPixelsByIce ⟨0, 27, 0, 0, 10, 0, 0, 1⟩ 1 1 (fun _ => 1) (fun _ => 0)
      (fun _ => 0) (fun _ => 1) zeroIceOutputs) 0 (by norm_num)).1 rfl
  obtain ⟨z1, _, _, _, _, _, _, _, _, _, _, _, _, _, z15, hw, _⟩ := hrun2
  exact ⟨z1, z15, hw.trans hwarm1, by norm_num⟩

/-- Embedding of the caller's `continentalPenalty` closure from
`RecolorGridLayer.ts` (lines 496-515): zero on ocean targets, otherwise a
power-2.5 ramp of the continental value beyond the coastal threshold,
scaled by `continentalDryness`. -/
def continentalPenalty (isLandMask : ℕ → ℕ) (continentalValue : ℕ → ℝ)
    (coastalThreshold continentalDryness : ℝ) (u v : ℕ) (d : Dir4) : ℝ :=
  if isLandMask v = 0 then 0
  else
    let c := continentalValue v
    let t := max 0 (min 1 ((c - coastalThreshold) / (1 - coastalThreshold)))
    let inland := t ^ (2.5 : ℝ)
    continentalDryness * inland

/-- The edge cost as the specification words it: the source's cost plus
the (clamped) continental-dryness penalty term (for comparison with the
engine's `stepCostTo`, whose parameter record has no such field). -/
def stepCostSpec (isLand : List Bool) (ps : MoistureDijkstraParams)
    (contPen : ℕ → ℕ → Dir4 → ℝ) (u v : ℕ) (d : Dir4) : ℝ :=
  let isOcean := isLand.getD v false = false
  let c0 := if isOcean then oceanStepCost else baselineLandStep ps
  let c1 := match ps.coldMultiplier with
    | none => c0
    | some f => c0 * clampAtLeast1 (f v)
  let c2 := match ps.elevationPenalty with
    | none => c1
    | some f => c1 + clampNonNeg (f u v d)
  let c3 := match ps.directionPenalty with
    | none => c2
    | some f => c2 + clampNonNeg (f u v d)
  let c4 := c3 + clampNonNeg (contPen u v d)
  if c4 < 0 then 0 else c4

/-- C2 fails on the code: the engine's edge cost ignores the caller's
continental penalty.  On a land step deep in the interior (continental
value `1`, threshold `1/2`, dryness `1/2`) the caller's penalty is `1/2`,
the spec's edge cost is the base land step plus `1/2`, yet `stepCostTo`
returns only the base land step: the `MoistureDijkstraParams` record has
no `continentalPenalty` field and `stepCostTo` never adds one. -/
theorem step_cost_ignores_continental_penalty :
    stepCostTo [true] {} 0 0 Dir4.east = 50 / 3000 ∧
    continentalPenalty (fun _ => 1) (fun _ => 1) (1 / 2) (1 / 2) 0 0 Dir4.east = 1 / 2 ∧
    stepCostSpec [true] {}
        (continentalPenalty (fun _ => 1) (fun _ => 1) (1 / 2) (1 / 2)) 0 0 Dir4.east =
      50 / 3000 + 1 / 2 ∧
    stepCostTo [true] {} 0 0 Dir4.east ≠
      stepCostSpec [true] {}
        (continentalPenalty (fun _ => 1) (fun _ => 1) (1 / 2) (1 / 2)) 0 0 Dir4.east := by
  have hbase : baselineLandStep ({} : MoistureDijkstraParams) = 50 / 3000 := by
    unfold baselineLandStep safeL0 resolvedL0Km resolvedPixelKm resolvedLandBaseMultiplier
    norm_num
  have hpen : continentalPenalty (fun _ => 1) (fun _ => 1) (1 / 2) (1 / 2) 0 0
      Dir4.east = 1 / 2 := by
    unfold continentalPenalty
    rw [if_neg (by norm_num)]
    dsimp only
    rw [show max (0 : ℝ) (min 1 ((1 - 1 / 2) / (1 - 1 / 2))) = 1 by norm_num]
    rw [Real.one_rpow]
    norm_num
  have hcode : stepCostTo [true] {} 0 0 Dir4.east = 50 / 3000 := by
    unfold stepCostTo
    dsimp only
    rw [show ([true] : List Bool).getD 0 false = true from rfl]
    rw [if_neg (show ¬ (true = false) from by simp)]
    rw [hbase]
    rw [if_neg (show ¬ ((50 : ℝ) / 3000 < 0) from by norm_num)]
  have hspec : stepCostSpec [true] {}
      (continentalPenalty (fun _ => 1) (fun _ => 1) (1 / 2) (1 / 2)) 0 0 Dir4.east =
      50 / 3000 + 1 / 2 := by
    unfold stepCostSpec
    dsimp only
    rw [show ([true] : List Bool).getD 0 false = true from rfl]
    rw [if_neg (show ¬ (true = false) from by simp)]
    rw [hbase, hpen]
    unfold clampNonNeg
    rw [if_neg (show ¬ ((1 : ℝ) / 2 < 0) from by norm_num)]
    rw [if_neg (show ¬ ((50 : ℝ) / 3000 + 1 / 2 < 0) from by norm_num)]
  refine ⟨hcode, hpen, hspec, ?_⟩
  rw [hcode, hspec]
  norm_num

/-- Witness for C1 on a concrete 1×1 all-land raster: the lengths match,
the run terminates (empty heap immediately), and the sole cell, being
unreachable from any ocean cell, ends with cost `+Infinity`. -/
theorem dijkstra_cost_is_min_path_cost_witness :
    ([true] : List Bool).length = 1 * 1 ∧ ([(0 : ℝ)] : List ℝ).length = 1 * 1 ∧
    (dijkstraFinal [true] [(0 : ℝ)] 1 1 {} 1).heap = [] ∧
    ∃ res : MoistureDijkstraResult,
      computeMoistureAvailabilityDijkstra [true] [(0 : ℝ)] 1 1 {} 1 = Except.ok res ∧
      (¬ Reachable [true] 1 1 0 → res.cost.getD 0 ⊤ = ⊤) := by
  have hterm : (dijkstraFinal [true] [(0 : ℝ)] 1 1 {} 1).heap = [] := by
    unfold dijkstraFinal
    rw [seedState_all_land [true] [(0 : ℝ)] (1 * 1) (by decide)]
    rw [runLoop_empty_heap [true] {} 1 1 1 initState rfl]
    rfl
  refine ⟨rfl, rfl, hterm, ?_⟩
  obtain ⟨res, hok, hspec⟩ := dijkstra_cost_is_min_path_cost [true] [(0 : ℝ)] 1 1 {} 1
    rfl rfl hterm
  exact ⟨res, hok, fun hnr => (hspec 0 (by norm_num)).2 hnr⟩

/-- Witness for the amended C3 on a concrete 1×1 all-ocean raster. -/
theorem dijkstra_ocean_seed_amended_witness :
    ([false] : List Bool).length = 1 * 1 ∧ ([(1 : ℝ)] : List ℝ).length = 1 * 1 ∧
    ∃ res : MoistureDijkstraResult,
      computeMoistureAvailabilityDijkstra [false] [(1 : ℝ)] 1 1 {} 2 = Except.ok res ∧
      res.cost.getD 0 ⊤ ≤ ((seedCost [(1 : ℝ)] 0 : ℝ) : WithTop ℝ) := by
  refine ⟨rfl, rfl, ?_⟩
  obtain ⟨res, hok, hspec⟩ := dijkstra_ocean_seed_amended [false] [(1 : ℝ)] 1 1 {} 2
    rfl rfl
  exact ⟨res, hok, ((hspec 0 (by norm_num) rfl).2).1⟩

/-- Witness for C4 on a concrete 1×1 all-land raster: the engine returns
normally and the cell ends with infinite cost, zero moisture and `-1`
predecessor and source. -/
theorem dijkstra_degenerate_and_range_witness :
    ([true] : List Bool).length = 1 * 1 ∧ ([(0 : ℝ)] : List ℝ).length = 1 * 1 ∧
    ∃ res : MoistureDijkstraResult,
      computeMoistureAvailabilityDijkstra [true] [(0 : ℝ)] 1 1 {} 1 = Except.ok res ∧
      res.cost.getD 0 ⊤ = ⊤ ∧ res.moisture.getD 0 0 = 0 ∧
      res.prev.getD 0 0 = -1 ∧ res.src.getD 0 0 = -1 := by
  refine ⟨rfl, rfl, ?_⟩
  obtain ⟨res, hok, _, hzero⟩ := dijkstra_degenerate_and_range [true] [(0 : ℝ)] 1 1 {} 1
    rfl rfl
  exact ⟨res, hok, hzero (by decide) 0 (by norm_num)⟩

/-- Witness for C6 on a concrete 1×1 all-land raster with e-folding
distances `2` and `1`. -/
theorem moisture_monotone_in_efolding_witness :
    (0 : ℝ) < 1 ∧ (1 : ℝ) < 2 ∧
    (0 : ℝ) ≤ ({} : MoistureDijkstraParams).pixelKm.getD 50 ∧
    (0 : ℝ) ≤ ({} : MoistureDijkstraParams).landBaseMultiplier.getD 1 ∧
    ([true] : List Bool).length = 1 * 1 ∧ ([(0 : ℝ)] : List ℝ).length = 1 * 1 ∧
    (dijkstraFinal [true] [(0 : ℝ)] 1 1
      { ({} : MoistureDijkstraParams) with L0Km := some 2 } 1).heap = [] ∧
    (dijkstraFinal [true] [(0 : ℝ)] 1 1
      { ({} : MoistureDijkstraParams) with L0Km := some 1 } 1).heap = [] ∧
    ∃ resA resB : MoistureDijkstraResult,
      computeMoistureAvailabilityDijkstra [true] [(0 : ℝ)] 1 1
          { ({} : MoistureDijkstraParams) with L0Km := some 2 } 1 = Except.ok resA ∧
      computeMoistureAvailabilityDijkstra [true] [(0 : ℝ)] 1 1
          { ({} : MoistureDijkstraParams) with L0Km := some 1 } 1 = Except.ok resB ∧
      ∀ p : ℕ, p < 1 * 1 → resB.moisture.getD p 0 ≤ resA.moisture.getD p 0 := by
  have htermA : (dijkstraFinal [true] [(0 : ℝ)] 1 1
      { ({} : MoistureDijkstraParams) with L0Km := some 2 } 1).heap = [] := by
    unfold dijkstraFinal
    rw [seedState_all_land [true] [(0 : ℝ)] (1 * 1) (by decide)]
    rw [runLoop_empty_heap _ _ 1 1 1 initState rfl]
    rfl
  have htermB : (dijkstraFinal [true] [(0 : ℝ)] 1 1
      { ({} : MoistureDijkstraParams) with L0Km := some 1 } 1).heap = [] := by
    unfold dijkstraFinal
    rw [seedState_all_land [true] [(0 : ℝ)] (1 * 1) (by decide)]
    rw [runLoop_empty_heap _ _ 1 1 1 initState rfl]
    rfl
  refine ⟨by norm_num, by norm_num, by norm_num, by norm_num, rfl, rfl, htermA, htermB, ?_⟩
  exact moisture_monotone_in_efolding [true] [(0 : ℝ)] 1 1 {} 1 1 2 1 (by norm_num)
    (by norm_num) (by norm_num) (by norm_num) rfl rfl htermA htermB

/-- Witness for C7 at concrete sea levels `0 ≤ 1` with no ice. -/
theorem effective_sea_level_monotone_witness :
    (0 : ℝ) ≤ 0 ∧ (0 : ℝ) ≤ 1 ∧ (0 : ℝ) ≤ 0 ∧
    (deriveEffectiveSeaLevel 0 0 0 ≤ deriveEffectiveSeaLevel 1 0 0 ∧
      ∀ (elevations : List ℝ) (p : ℕ), p < elevations.length →
        ((colorPixelsBySeaLevel elevations (deriveEffectiveSeaLevel 0 0 0)).getD p
            (1, 0)).1 = 0 →
        ((colorPixelsBySeaLevel elevations (deriveEffectiveSeaLevel 1 0 0)).getD p
            (1, 0)).1 = 0) :=
  ⟨le_refl 0, by norm_num, le_refl 0,
    effective_sea_level_monotone 0 0 0 1 (le_refl 0) (by norm_num) (le_refl 0)
      (le_refl 0)⟩

/-- Witness for C8 on a concrete 1×1 land cell. -/
theorem ice_thermal_decomposition_witness :
    (0 : ℕ) < 1 * 1 ∧ ((fun _ : ℕ => 1) 0 : ℕ) ≠ 0 ∧
    (colorPixelsByIce ⟨0, 0, 0, 0, 0, 0, 0, 1⟩ 1 1 (fun _ => 1) (fun _ => 0)
        (fun _ => 0) (fun _ => 0) zeroIceOutputs).T_lat 0 =
      (0 : ℝ) + (27 - 0) * Real.cos (iceLatRadAt
        (fun gy : ℕ => worldYToLatDeg (gy : ℝ) ((1 : ℕ) : ℝ)) 1 0) ^ (1.3 : ℝ) := by
  refine ⟨by norm_num, by norm_num, ?_⟩
  exact (ice_thermal_decomposition ⟨0, 0, 0, 0, 0, 0, 0, 1⟩ 1 1 (fun _ => 1)
    (fun _ => 0) (fun _ => 0) (fun _ => 0) zeroIceOutputs 0 (by norm_num)
    (by norm_num)).1

/-- Witness for the amended C5 on a concrete 1×1 land cell. -/
theorem ice_continental01_hardcoded_witness :
    (0 : ℕ) < 1 * 1 ∧ ((fun _ : ℕ => 1) 0 : ℕ) ≠ 0 ∧
    (colorPixelsByIce ⟨0, 27, 0, 0, 0, 0, 0, 1⟩ 1 1 (fun _ => 1) (fun _ => 0)
        (fun _ => 0) (fun _ => 1 / 2) zeroIceOutputs).continental01 0 =
      clamp01 ((1 / 2 * 1 - 0.5) / (1 - 0.5)) := by
  refine ⟨by norm_num, by norm_num, ?_⟩
  exact ice_continental01_hardcoded ⟨0, 27, 0, 0, 0, 0, 0, 1⟩ 1 1 (fun _ => 1)
    (fun _ => 0) (fun _ => 0) (fun _ => 1 / 2) zeroIceOutputs 0 (by norm_num)
    (by norm_num)

/-- Witness for C10: a mismatched length is rejected, a matching one is
accepted with a correctly sized moisture array. -/
theorem dijkstra_length_guard_witness :
    (∃ msg, computeMoistureAvailabilityDijkstra [true] [(0 : ℝ)] 2 1 {} 1 =
      Except.error msg) ∧
    ∃ res : MoistureDijkstraResult,
      computeMoistureAvailabilityDijkstra [true] [(0 : ℝ)] 1 1 {} 1 = Except.ok res ∧
      res.moisture.length = 1 * 1 := by
  constructor
  · exact (dijkstra_length_guard [true] [(0 : ℝ)] 2 1 {} 1).1.mpr (Or.inl (by decide))
  · obtain ⟨res, hok, h1, _⟩ := (dijkstra_length_guard [true] [(0 : ℝ)] 1 1 {} 1).2 rfl rfl
    exact ⟨res, hok, h1⟩

end

end SeaLevelViewer
